import Mathlib

/-!
Verification of the scheduling/conflict/habit-learning core of the
`claude_calendar` repository.

Shallow embedding conventions:
* Timestamps are modelled as `Int` minutes since an epoch whose instant 0 is a
  local midnight falling on a Thursday (like the JS epoch).  A calendar day is
  the fixed block of 1440 minutes; `date-fns` day arithmetic (`startOfDay`,
  `addDays`, `getHours`, `getDay`, ...) is translated accordingly.
* `date-fns` v3 interval helpers normalise an interval by sorting its two
  endpoints; the embeddings below do the same with `min`/`max`.
* JS `Map`/`Set` values are modelled as insertion-ordered association lists /
  duplicate-free lists with add-if-absent insertion.
-/

namespace CalendarCore

/-- Event categories (`EventCategory` in src/types/index.ts). -/
inductive EventCategory where
  | work | personal | health | social | learning | other
deriving DecidableEq, Repr

/-- The fields of `CalendarEvent` (src/types/index.ts) that the scheduling
core reads: id, start/end instants, all-day flag and optional category. -/
structure CalendarEvent where
  id : Nat
  start : Int
  end_ : Int
  allDay : Bool
  category : Option EventCategory
deriving DecidableEq, Repr

/-- date-fns v3 `areIntervalsOverlapping` with default options: each interval
is normalised by sorting its endpoints, then compared with strict `<`. -/
def areIntervalsOverlapping (s1 e1 s2 e2 : Int) : Bool :=
  decide (min s1 e1 < max s2 e2) && decide (min s2 e2 < max s1 e1)

/-- The pairwise test applied in `detectConflicts` (conflicts.ts, line 25). -/
def overlapsB (a b : CalendarEvent) : Bool :=
  areIntervalsOverlapping a.start a.end_ b.start b.end_

inductive ConflictType where
  | overlap | backToBack | overbooking
deriving DecidableEq, Repr

inductive Severity where
  | low | medium | high
deriving DecidableEq, Repr

/-- `Conflict` (src/types/index.ts): member event ids, type and severity.
The impure `id` string (built from `Date.now()`) is not modelled. -/
structure Conflict where
  events : List Nat
  type : ConflictType
  severity : Severity
deriving DecidableEq, Repr

instance decRelStartLe : DecidableRel (fun a b : CalendarEvent => a.start ≤ b.start) :=
  fun a b => Int.decLe a.start b.start

/-- `[...events].filter(e => !e.allDay).sort((a, b) => a.start - b.start)`
(conflicts.ts, lines 9-11). -/
def sortedNonAllDay (events : List CalendarEvent) : List CalendarEvent :=
  (events.filter (fun e => !e.allDay)).insertionSort (fun a b => a.start ≤ b.start)

/-- All ordered pairs `(l[i], l[j])` with `i < j`, in the order the nested
`for` loops of `detectConflicts` visit them. -/
def pairsAfter {α : Type} : List α → List (α × α)
  | [] => []
  | x :: xs => xs.map (fun y => (x, y)) ++ pairsAfter xs

/-- The `Map<string, Set<string>>` of `detectConflicts`, as an
insertion-ordered association list with duplicate-free value lists. -/
abbrev AdjMap := List (Nat × List Nat)

/-- `conflictMap.get(k)` with a default empty set. -/
def lookupAdj (m : AdjMap) (k : Nat) : List Nat :=
  match m.find? (fun p => p.1 == k) with
  | some p => p.2
  | none => []

/-- `if (!conflictMap.has(k)) conflictMap.set(k, new Set())`. -/
def ensureKey (m : AdjMap) (k : Nat) : AdjMap :=
  if m.any (fun p => p.1 == k) then m else m ++ [(k, [])]

/-- `conflictMap.get(k)!.add(v)` (a JS `Set` appends only if absent). -/
def addToSet (m : AdjMap) (k v : Nat) : AdjMap :=
  m.map (fun p => if p.1 == k then (p.1, if p.2.contains v then p.2 else p.2 ++ [v]) else p)

/-- Record one overlapping pair in the conflict map, both directions
(conflicts.ts, lines 30-37). -/
def recordOverlap (m : AdjMap) (a b : Nat) : AdjMap :=
  addToSet (addToSet (ensureKey (ensureKey m a) b) a b) b a

/-- The pairwise scan that builds `conflictMap` (conflicts.ts, lines 14-40). -/
def buildConflictMap (events : List CalendarEvent) : AdjMap :=
  (pairsAfter (sortedNonAllDay events)).foldl
    (fun m pr => if overlapsB pr.1 pr.2 then recordOverlap m pr.1.id pr.2.id else m) []

/-- The inner `for (const relatedId of related)` loop of the BFS: every
related id not yet in the visited set is appended to the visited set and the
queue. -/
def addNew (visited queue : List Nat) : List Nat → List Nat × List Nat
  | [] => (visited, queue)
  | r :: rs =>
    if visited.contains r then addNew visited queue rs
    else addNew (visited ++ [r]) (queue ++ [r]) rs

/-- All ids appearing in some neighbour set of the map. -/
def support : AdjMap → List Nat
  | [] => []
  | p :: m => p.2 ++ support m

/-- The `while (queue.length > 0)` BFS loop of `detectConflicts`
(conflicts.ts, lines 52-63). -/
def bfsAux (m : AdjMap) : List Nat → List Nat → List Nat
  | visited, [] => visited
  | visited, currentId :: rest =>
    bfsAux m (addNew visited rest (lookupAdj m currentId)).1
      (addNew visited rest (lookupAdj m currentId)).2
termination_by visited queue => ((support m).toFinset \ visited.toFinset).card + queue.length
decreasing_by
  have hsupp : ∀ x ∈ lookupAdj m currentId, x ∈ support m := by
    induction m with
    | nil => intro x hx; simp [lookupAdj] at hx
    | cons p m ih =>
      intro x hx
      by_cases h : p.1 == currentId
      · simp only [lookupAdj, List.find?, h] at hx
        exact List.mem_append_left _ hx
      · simp only [lookupAdj, List.find?, h] at hx
        exact List.mem_append_right _ (ih x hx)
  have spec : ∀ (rs v q : List Nat), ∃ d,
      addNew v q rs = (v ++ d, q ++ d) ∧ (∀ x ∈ d, x ∈ rs ∧ x ∉ v) ∧ d.Nodup := by
    intro rs
    induction rs with
    | nil => intro v q; exact ⟨[], by simp [addNew]⟩
    | cons r rs ih =>
      intro v q
      by_cases h : v.contains r = true
      · obtain ⟨d, hd1, hd2, hd3⟩ := ih v q
        have hstep : addNew v q (r :: rs) = addNew v q rs := by
          simp only [addNew, h, if_true]
        exact ⟨d, by rw [hstep, hd1],
          fun x hx => ⟨List.mem_cons_of_mem _ (hd2 x hx).1, (hd2 x hx).2⟩, hd3⟩
      · obtain ⟨d, hd1, hd2, hd3⟩ := ih (v ++ [r]) (q ++ [r])
        have hrd : r ∉ d := fun hrd => by
          have := (hd2 r hrd).2
          simp at this
        have hstep : addNew v q (r :: rs) = addNew (v ++ [r]) (q ++ [r]) rs := by
          simp only [addNew]
          rw [if_neg h]
        refine ⟨r :: d, ?_, ?_, List.nodup_cons.mpr ⟨hrd, hd3⟩⟩
        · rw [hstep, hd1]
          simp
        · intro x hx
          rcases List.mem_cons.mp hx with rfl | hx'
          · exact ⟨List.mem_cons_self _ _, fun hxv => h (by simpa using hxv)⟩
          · have := hd2 x hx'
            refine ⟨List.mem_cons_of_mem _ this.1, fun hxv => this.2 ?_⟩
            simp [hxv]
  obtain ⟨d, hd1, hd2, hd3⟩ := spec (lookupAdj m currentId) visited rest
  rw [hd1]
  simp only [List.toFinset_append, List.length_append]
  have hsub : d.toFinset ⊆ (support m).toFinset \ visited.toFinset := by
    intro x hx
    rw [List.mem_toFinset] at hx
    rw [Finset.mem_sdiff, List.mem_toFinset, List.mem_toFinset]
    exact ⟨hsupp x (hd2 x hx).1, (hd2 x hx).2⟩
  have hcard : d.toFinset.card = d.length := by
    rw [List.card_toFinset, hd3.dedup]
  have heq : (support m).toFinset \ (visited.toFinset ∪ d.toFinset) =
      ((support m).toFinset \ visited.toFinset) \ d.toFinset := by
    ext z
    simp only [Finset.mem_sdiff, Finset.mem_union]
    tauto
  have hle := Finset.card_le_card hsub
  have hcard2 := Finset.card_sdiff hsub
  rw [heq, hcard2, hcard] at *
  simp only [List.length_cons]
  omega

/-- `processedEvents.add(id)` over all group members (conflicts.ts, line 66). -/
def addProcessed (processed ids : List Nat) : List Nat :=
  ids.foldl (fun pr i => if pr.contains i then pr else pr ++ [i]) processed

/-- `eventCount > 3 ? 'high' : eventCount > 2 ? 'medium' : 'low'`. -/
def severityOf (eventCount : Nat) : Severity :=
  if 3 < eventCount then .high else if 2 < eventCount then .medium else .low

/-- The grouping loop of `detectConflicts` (conflicts.ts, lines 45-78):
iterate over the conflict-map entries, skip processed ids, and emit one
conflict per BFS closure. -/
def detectLoop (m : AdjMap) : List (Nat × List Nat) → List Nat → List Conflict
  | [], _ => []
  | entry :: rest, processed =>
    if processed.contains entry.1 then detectLoop m rest processed
    else
      { events := bfsAux m [entry.1] [entry.1]
        type := if 2 < (bfsAux m [entry.1] [entry.1]).length then .overbooking else .overlap
        severity := severityOf (bfsAux m [entry.1] [entry.1]).length } ::
      detectLoop m rest (addProcessed processed (bfsAux m [entry.1] [entry.1]))

/-- `detectConflicts` (src/services/scheduler/conflicts.ts, lines 4-81). -/
def detectConflicts (events : List CalendarEvent) : List Conflict :=
  detectLoop (buildConflictMap events) (buildConflictMap events) []

/-- Reachability along the conflict-map adjacency: the transitive grouping
relation the BFS in `detectConflicts` computes. -/
def Reach (m : AdjMap) (x y : Nat) : Prop :=
  Relation.ReflTransGen (fun u v => v ∈ lookupAdj m u) x y

/-- The keys of the conflict map, in insertion order. -/
def keys (m : AdjMap) : List Nat := m.map Prod.fst

/-- The specification-level strict-overlap adjacency on event ids: two
distinct non-all-day events whose half-open intervals strictly overlap. -/
def OverlapAdj (events : List CalendarEvent) (x y : Nat) : Prop :=
  ∃ a ∈ events, ∃ b ∈ events, a.allDay = false ∧ b.allDay = false ∧
    a.id = x ∧ b.id = y ∧ x ≠ y ∧ a.start < b.end_ ∧ b.start < a.end_

/-- Connectivity under `OverlapAdj`: the specification-level "same conflict
group" relation (reflexive-transitive closure of pairwise strict overlap). -/
def Connected (events : List CalendarEvent) (x y : Nat) : Prop :=
  Relation.ReflTransGen (OverlapAdj events) x y

/-- `hasConflict` (src/services/scheduler/conflicts.ts, lines 111-127). -/
def hasConflict (newStart newEnd : Int) (existingEvents : List CalendarEvent) : Bool :=
  existingEvents.any (fun event =>
    !event.allDay && areIntervalsOverlapping newStart newEnd event.start event.end_)

/-- date-fns `startOfDay` in the fixed-offset minute model: round down to the
enclosing multiple of 1440 minutes. -/
def startOfDay (t : Int) : Int := 1440 * (t.fdiv 1440)

/-- `getHours`: the hour within the instant's day (0-23). -/
def getHours (t : Int) : Int := (t.emod 1440).fdiv 60

/-- `getMinutes`: the minute within the instant's hour (0-59). -/
def getMinutes (t : Int) : Int := t.emod 60

/-- `getDay`: weekday 0-6 (Sunday-Saturday); instant 0 is a Thursday
(weekday 4), like the JS epoch. -/
def getDay (t : Int) : Int := (t.fdiv 1440 + 4).emod 7

/-- date-fns v3 `isWithinInterval`: the interval is normalised by sorting its
endpoints, membership is inclusive on both ends. -/
def isWithinInterval (t s e : Int) : Bool :=
  decide (min s e ≤ t) && decide (t ≤ max s e)

/-- The `workingHours` setting with its two "HH:mm" strings already split by
`split(':').map(Number)` (suggestions.ts, lines 36-37). -/
structure WorkingHours where
  startHour : Int
  startMinute : Int
  endHour : Int
  endMinute : Int
deriving DecidableEq, Repr

/-- `FreeSlot` (suggestions.ts, lines 16-20); `duration` is in minutes. -/
structure FreeSlot where
  start : Int
  end_ : Int
  duration : Int
deriving DecidableEq, Repr

/-- One iteration of the day loop of `findFreeSlots` (suggestions.ts, lines
43-96): build the working window of `currentDay` (a midnight instant),
filter and sort the relevant non-all-day events, then run the cursor scan
that emits every gap of at least `minDuration` minutes. -/
def dayFreeSlots (events : List CalendarEvent) (wh : WorkingHours)
    (minDuration : Int) (currentDay : Int) : List FreeSlot :=
  let dayStart := currentDay + wh.startHour * 60 + wh.startMinute
  let dayEnd := currentDay + wh.endHour * 60 + wh.endMinute
  let dayEvents := (events.filter (fun e => !e.allDay &&
      (isWithinInterval e.start dayStart dayEnd ||
       isWithinInterval e.end_ dayStart dayEnd ||
       (decide (e.start < dayStart) && decide (e.end_ > dayEnd))))).insertionSort
        (fun a b => a.start ≤ b.start)
  let scan := dayEvents.foldl (fun (acc : Int × List FreeSlot) event =>
      let slotStart := acc.1
      let effectiveStart := if event.start < dayStart then dayStart else event.start
      let effectiveEnd := if event.end_ > dayEnd then dayEnd else event.end_
      let slots :=
        if slotStart < effectiveStart then
          if effectiveStart - slotStart ≥ minDuration then
            acc.2 ++ [⟨slotStart, effectiveStart, effectiveStart - slotStart⟩]
          else acc.2
        else acc.2
      (if effectiveEnd > slotStart then effectiveEnd else slotStart, slots))
    (dayStart, [])
  if scan.1 < dayEnd then
    if dayEnd - scan.1 ≥ minDuration then
      scan.2 ++ [⟨scan.1, dayEnd, dayEnd - scan.1⟩]
    else scan.2
  else scan.2

/-- The `while (currentDay <= lastDay)` loop of `findFreeSlots`
(suggestions.ts, lines 42-99), advancing one calendar day per iteration. -/
def findFreeSlotsLoop (events : List CalendarEvent) (wh : WorkingHours)
    (minDuration : Int) (currentDay lastDay : Int) : List FreeSlot :=
  if _h : currentDay ≤ lastDay then
    dayFreeSlots events wh minDuration currentDay ++
      findFreeSlotsLoop events wh minDuration (currentDay + 1440) lastDay
  else []
termination_by (lastDay + 1440 - currentDay).toNat
decreasing_by omega

/-- `findFreeSlots` (src/services/scheduler/suggestions.ts, lines 28-102). -/
def findFreeSlots (events : List CalendarEvent) (startDate endDate : Int)
    (wh : WorkingHours) (minDuration : Int) : List FreeSlot :=
  findFreeSlotsLoop events wh minDuration (startOfDay startDate) (startOfDay endDate)

/-- `TimeSlot` (src/types/index.ts): optional weekday plus hour/minute. -/
structure TimeSlot where
  dayOfWeek : Option Int
  hour : Int
  minute : Int
deriving DecidableEq, Repr

inductive FrequencyType where
  | daily | weekly | monthly
deriving DecidableEq, Repr

/-- `HabitPattern` (src/types/index.ts); the `createdAt`/`updatedAt`
timestamps are never read by the modelled operations and are omitted. -/
structure HabitPattern where
  id : Nat
  category : EventCategory
  preferredTimes : List TimeSlot
  avgDuration : Int
  frequency : FrequencyType
  lastOccurrences : List Int
  eventCount : Nat
deriving DecidableEq, Repr

/-- `TimeSuggestion` (suggestions.ts, lines 22-26).  Every JS float score in
`suggestBestTimes` is a multiple of 0.05, so scores are modelled exactly as
integer hundredths (0.5 ↦ 50, 1.0 ↦ 100). -/
structure TimeSuggestion where
  slot : FreeSlot
  score : Int
  reasons : List String
deriving DecidableEq, Repr

def categoryName : EventCategory → String
  | .work => "work"
  | .personal => "personal"
  | .health => "health"
  | .social => "social"
  | .learning => "learning"
  | .other => "other"

/-- JS template interpolation of the optional `category` argument. -/
def optCategoryName : Option EventCategory → String
  | none => "undefined"
  | some c => categoryName c

/-- The body of the `for (const preferredTime of categoryHabit.preferredTimes)`
loop of `suggestBestTimes` (suggestions.ts, lines 127-142): weekday bonus
with a reason, then the close-hour bonuses (only the within-one-hour bonus
pushes a reason; the within-two-hours bonus does not). -/
def habitScoreStep (category : Option EventCategory) (slotHour slotDayOfWeek : Int)
    (acc : Int × List String) (preferredTime : TimeSlot) : Int × List String :=
  let acc1 :=
    if preferredTime.dayOfWeek = some slotDayOfWeek then
      (acc.1 + 10, acc.2 ++
        ["You often schedule " ++ optCategoryName category ++ " events on this day"])
    else acc
  if (preferredTime.hour - slotHour).natAbs ≤ 1 then
    (acc1.1 + 20, acc1.2 ++
      ["This matches your usual time for " ++ optCategoryName category ++ " tasks"])
  else if (preferredTime.hour - slotHour).natAbs ≤ 2 then
    (acc1.1 + 10, acc1.2)
  else acc1

/-- Accumulated habit bonuses over all preferred times (base score 0.5,
i.e. 50 hundredths), when a pattern for the requested category exists. -/
def habitScore (categoryHabit : Option HabitPattern) (category : Option EventCategory)
    (slotHour slotDayOfWeek : Int) : Int × List String :=
  match categoryHabit with
  | some habit =>
    habit.preferredTimes.foldl (habitScoreStep category slotHour slotDayOfWeek)
      ((50 : Int), ([] : List String))
  | none => ((50 : Int), ([] : List String))

/-- The per-candidate score/reasons computation of `suggestBestTimes`
(suggestions.ts, lines 119-186): base 0.5, habit bonuses per preferred time,
fixed category time-of-day bonuses, buffer bonus, capped at 1, and the
output slot trimmed to exactly the desired duration. -/
def scoreSlot (categoryHabit : Option HabitPattern) (category : Option EventCategory)
    (desiredDuration : Int) (slot : FreeSlot) : TimeSuggestion :=
  let slotHour := getHours slot.start
  let slotDayOfWeek := getDay slot.start
  let afterHabit := habitScore categoryHabit category slotHour slotDayOfWeek
  let afterWork :=
    if category = some EventCategory.work ∨ category = some EventCategory.learning then
      if 9 ≤ slotHour ∧ slotHour < 12 then
        (afterHabit.1 + 15, afterHabit.2 ++ ["Morning hours are great for focused work"])
      else afterHabit
    else afterHabit
  let afterSocial :=
    if category = some EventCategory.social then
      if 17 ≤ slotHour then
        (afterWork.1 + 10, afterWork.2 ++ ["Evening is typically better for social activities"])
      else afterWork
    else afterWork
  let afterHealth :=
    if category = some EventCategory.health then
      if (6 ≤ slotHour ∧ slotHour < 8) ∨ (17 ≤ slotHour ∧ slotHour < 19) then
        (afterSocial.1 + 15, afterSocial.2 ++ ["Great time for exercise"])
      else afterSocial
    else afterSocial
  let afterBuffer :=
    if slot.duration ≥ desiredDuration + 30 then
      (afterHealth.1 + 10, afterHealth.2 ++ ["Extra buffer time available"])
    else afterHealth
  { slot := ⟨slot.start, slot.start + desiredDuration, desiredDuration⟩
    score := min afterBuffer.1 100
    reasons := afterBuffer.2 }

instance decRelScoreGe : DecidableRel (fun a b : TimeSuggestion => b.score ≤ a.score) :=
  fun a b => Int.decLe b.score a.score

instance instTotalScoreGe : IsTotal TimeSuggestion (fun a b => b.score ≤ a.score) :=
  ⟨fun a b => le_total b.score a.score⟩

instance instTransScoreGe : IsTrans TimeSuggestion (fun a b => b.score ≤ a.score) :=
  ⟨fun _ _ _ h1 h2 => le_trans h2 h1⟩

/-- `suggestBestTimes` (src/services/scheduler/suggestions.ts, lines
104-191): skip too-short slots, score the rest, sort descending by score. -/
def suggestBestTimes (freeSlots : List FreeSlot) (desiredDuration : Int)
    (habits : List HabitPattern) (category : Option EventCategory) : List TimeSuggestion :=
  let categoryHabit := habits.find? (fun h => decide (some h.category = category))
  ((freeSlots.filter (fun slot => !decide (slot.duration < desiredDuration))).map
    (scoreSlot categoryHabit category desiredDuration)).insertionSort
      (fun a b => b.score ≤ a.score)

/-- JS `arr.slice(-n)`: the last `n` elements (all of them when shorter). -/
def sliceLast {α : Type} (n : Nat) (l : List α) : List α := l.drop (l.length - n)

/-- JS `Math.round(p / q)` for integers with `q > 0`: round-half-up,
`⌊(2p + q) / (2q)⌋`. -/
def jsRoundDiv (p q : Int) : Int := (2 * p + q).fdiv (2 * q)

/-- `getHabitByCategory` (src/services/storage/habits.ts): first stored
pattern with the given category. -/
def getHabitByCategory (store : List HabitPattern) (category : EventCategory) :
    Option HabitPattern :=
  store.find? (fun h => decide (h.category = category))

/-- `updateHabit` (habits.ts, lines 39-52) as used by `learnFromEvent`:
replace the record carrying the given id. -/
def updateHabit (store : List HabitPattern) (i : Nat) (newPat : HabitPattern) :
    List HabitPattern :=
  store.map (fun h => if h.id = i then newPat else h)

/-- `generateId` (src/services/storage/events.ts) is an opaque random unique
id; it is modelled as one more than the largest id in the store, which keeps
the only property the code relies on (freshness). -/
def generateId (store : List HabitPattern) : Nat :=
  store.foldr (fun h acc => max (h.id + 1) acc) 0

/-- `updatePreferredTimes` (habits.ts, lines 104-128): merge into a slot of
the same weekday within one hour (single-step rounded average), else append
and keep the last five. -/
def updatePreferredTimes (existing : List TimeSlot) (newSlot : TimeSlot) : List TimeSlot :=
  match existing.findIdx? (fun slot => decide (slot.dayOfWeek = newSlot.dayOfWeek) &&
      decide ((slot.hour - newSlot.hour).natAbs ≤ 1)) with
  | some i =>
    match existing[i]? with
    | some similar =>
      existing.set i { similar with
        hour := jsRoundDiv (similar.hour + newSlot.hour) 2
        minute := jsRoundDiv (similar.minute + newSlot.minute) 2 }
    | none => existing
  | none => sliceLast 5 (existing ++ [newSlot])

/-- `learnFromEvent` (habits.ts, lines 64-101), with the habit store made
explicit: create a pattern on the first event of a category, otherwise update
the rolling average, occurrence history, preferred times and counter. -/
def learnFromEvent (store : List HabitPattern) (event : CalendarEvent) :
    List HabitPattern :=
  let category := event.category.getD EventCategory.other
  let eventTimeSlot : TimeSlot :=
    { dayOfWeek := some (getDay event.start)
      hour := getHours event.start
      minute := getMinutes event.start }
  let duration := event.end_ - event.start
  match getHabitByCategory store category with
  | some habit =>
    updateHabit store habit.id
      { habit with
        preferredTimes := updatePreferredTimes habit.preferredTimes eventTimeSlot
        avgDuration := jsRoundDiv (habit.avgDuration * (habit.eventCount : Int) + duration)
          ((habit.eventCount : Int) + 1)
        lastOccurrences := sliceLast 10 (habit.lastOccurrences ++ [event.start])
        eventCount := habit.eventCount + 1 }
  | none =>
    store ++ [{ id := generateId store
                category := category
                preferredTimes := [eventTimeSlot]
                avgDuration := duration
                frequency := FrequencyType.weekly
                lastOccurrences := [event.start]
                eventCount := 1 }]

instance decRelIntLe : DecidableRel (fun a b : Int => a ≤ b) :=
  fun a b => Int.decLe a b

/-- `analyzeHabitFrequency` (habits.ts, lines 131-148): mean successive gap
of the sorted occurrences, in days (exact rational arithmetic). -/
def analyzeHabitFrequency (store : List HabitPattern) (habitId : Nat) : FrequencyType :=
  match store.find? (fun h => decide (h.id = habitId)) with
  | none => FrequencyType.weekly
  | some habit =>
    if habit.lastOccurrences.length < 2 then FrequencyType.weekly
    else
      let occurrences := habit.lastOccurrences.insertionSort (fun a b => a ≤ b)
      let gaps := (occurrences.zip occurrences.tail).map
        (fun p => ((p.2 - p.1 : Int) : ℚ) / 1440)
      let avgGap := (gaps.foldl (· + ·) 0) / (gaps.length : ℚ)
      if avgGap ≤ 3 / 2 then FrequencyType.daily
      else if avgGap ≤ 10 then FrequencyType.weekly
      else FrequencyType.monthly

/-- `getSuggestedTimeForCategory` (habits.ts, lines 151-166). -/
def getSuggestedTimeForCategory (store : List HabitPattern)
    (category : EventCategory) (date : Int) : Option TimeSlot :=
  match getHabitByCategory store category with
  | none => none
  | some habit =>
    if habit.preferredTimes.length = 0 then none
    else
      match habit.preferredTimes.find? (fun slot =>
          decide (slot.dayOfWeek = some (getDay date))) with
      | some matchingSlot => some matchingSlot
      | none => habit.preferredTimes[0]?

/-- `getAvgDurationForCategory` (habits.ts, lines 169-172):
`habit?.avgDuration || 60` — the JS `||` falls back to 60 both when no
pattern exists and when the stored average is the falsy number 0. -/
def getAvgDurationForCategory (store : List HabitPattern)
    (category : EventCategory) : Int :=
  match getHabitByCategory store category with
  | some habit => if habit.avgDuration = 0 then 60 else habit.avgDuration
  | none => 60

/-- The day-by-day traversal of an inclusive day range: one midnight per
calendar day, from `currentDay` up to and including `lastDay`. -/
def daysFrom (currentDay lastDay : Int) : List Int :=
  if _h : currentDay ≤ lastDay then currentDay :: daysFrom (currentDay + 1440) lastDay
  else []
termination_by (lastDay + 1440 - currentDay).toNat
decreasing_by omega

/-- Preferred times whose weekday matches the slot's weekday. -/
def dayMatchCount (pts : List TimeSlot) (slotDayOfWeek : Int) : Nat :=
  (pts.filter (fun pt => decide (pt.dayOfWeek = some slotDayOfWeek))).length

/-- Preferred times whose hour is within one of the slot's hour. -/
def hourClose1Count (pts : List TimeSlot) (slotHour : Int) : Nat :=
  (pts.filter (fun pt => decide ((pt.hour - slotHour).natAbs ≤ 1))).length

/-- Preferred times whose hour is within two but not within one of the
slot's hour: these receive the +0.1 bonus that pushes no reason. -/
def hourClose2OnlyCount (pts : List TimeSlot) (slotHour : Int) : Nat :=
  (pts.filter (fun pt => decide (1 < (pt.hour - slotHour).natAbs ∧
    (pt.hour - slotHour).natAbs ≤ 2))).length

/-- The start instants of the events of one category, in list order. -/
def catStarts (events : List CalendarEvent) (c : EventCategory) : List Int :=
  (events.filter (fun e => decide (e.category.getD EventCategory.other = c))).map
    (fun e => e.start)

theorem addNew_spec (rs : List Nat) : ∀ visited queue : List Nat, ∃ d,
    addNew visited queue rs = (visited ++ d, queue ++ d) ∧
    (∀ x ∈ d, x ∈ rs ∧ x ∉ visited) ∧ d.Nodup ∧ (∀ x ∈ rs, x ∈ visited ++ d) := by
  induction rs with
  | nil =>
    intro v q
    exact ⟨[], by simp [addNew]⟩
  | cons r rs ih =>
    intro v q
    by_cases h : v.contains r = true
    · obtain ⟨d, hd1, hd2, hd3, hd4⟩ := ih v q
      have hstep : addNew v q (r :: rs) = addNew v q rs := by
        simp only [addNew, h, if_true]
      refine ⟨d, by rw [hstep, hd1], ?_, hd3, ?_⟩
      · exact fun x hx => ⟨List.mem_cons_of_mem _ (hd2 x hx).1, (hd2 x hx).2⟩
      · intro x hx
        rcases List.mem_cons.mp hx with rfl | hx'
        · exact List.mem_append_left _ (by simpa using h)
        · exact hd4 x hx'
    · obtain ⟨d, hd1, hd2, hd3, hd4⟩ := ih (v ++ [r]) (q ++ [r])
      have hrd : r ∉ d := fun hrd => by
        have := (hd2 r hrd).2
        simp at this
      have hstep : addNew v q (r :: rs) = addNew (v ++ [r]) (q ++ [r]) rs := by
        simp only [addNew]
        rw [if_neg h]
      refine ⟨r :: d, ?_, ?_, ?_, ?_⟩
      · rw [hstep, hd1]
        simp
      · intro x hx
        rcases List.mem_cons.mp hx with rfl | hx'
        · exact ⟨List.mem_cons_self _ _, fun hxv => h (by simpa using hxv)⟩
        · have := hd2 x hx'
          refine ⟨List.mem_cons_of_mem _ this.1, fun hxv => this.2 ?_⟩
          simp [hxv]
      · exact List.nodup_cons.mpr ⟨hrd, hd3⟩
      · intro x hx
        rcases List.mem_cons.mp hx with rfl | hx'
        · simp
        · have := hd4 x hx'
          simp only [List.mem_append, List.mem_singleton, List.mem_cons] at this ⊢
          tauto

theorem lookupAdj_subset_support (m : AdjMap) (k : Nat) :
    ∀ x ∈ lookupAdj m k, x ∈ support m := by
  induction m with
  | nil => intro x hx; simp [lookupAdj] at hx
  | cons p m ih =>
    intro x hx
    by_cases h : p.1 == k
    · simp only [lookupAdj, List.find?, h] at hx
      exact List.mem_append_left _ hx
    · simp only [lookupAdj, List.find?, h] at hx
      exact List.mem_append_right _ (ih x hx)

theorem sdiff_card_bound {S V D : Finset Nat} (h : D ⊆ S \ V) :
    (S \ (V ∪ D)).card + D.card ≤ (S \ V).card := by
  have heq : S \ (V ∪ D) = (S \ V) \ D := by
    ext x
    simp only [Finset.mem_sdiff, Finset.mem_union]
    tauto
  rw [heq, Finset.card_sdiff h]
  have := Finset.card_le_card h
  omega

theorem bfsAux_nil (m : AdjMap) (visited : List Nat) : bfsAux m visited [] = visited := by
  simp [bfsAux]

theorem bfsAux_cons (m : AdjMap) (visited : List Nat) (currentId : Nat) (rest : List Nat) :
    bfsAux m visited (currentId :: rest) =
      bfsAux m (addNew visited rest (lookupAdj m currentId)).1
        (addNew visited rest (lookupAdj m currentId)).2 := by
  rw [bfsAux]

theorem bfsAux_mono (m : AdjMap) :
    ∀ visited queue : List Nat, ∀ x ∈ visited, x ∈ bfsAux m visited queue := by
  intro visited queue
  induction visited, queue using bfsAux.induct m with
  | case1 v => simp [bfsAux_nil]
  | case2 v currentId rest ih =>
    intro x hx
    rw [bfsAux_cons]
    obtain ⟨d, hd1, _, _, _⟩ := addNew_spec (lookupAdj m currentId) v rest
    refine ih x ?_
    have h1 : (addNew v rest (lookupAdj m currentId)).1 = v ++ d := by rw [hd1]
    rw [h1]
    exact List.mem_append_left _ hx

theorem bfsAux_sound (m : AdjMap) (P : Nat → Prop)
    (hstep : ∀ u v, P u → v ∈ lookupAdj m u → P v) :
    ∀ visited queue : List Nat, (∀ x ∈ visited, P x) → (∀ x ∈ queue, P x) →
      ∀ x ∈ bfsAux m visited queue, P x := by
  intro visited queue
  induction visited, queue using bfsAux.induct m with
  | case1 v =>
    intro hv _ x hx
    rw [bfsAux_nil] at hx
    exact hv x hx
  | case2 v currentId rest ih =>
    intro hv hq x hx
    rw [bfsAux_cons] at hx
    obtain ⟨d, hd1, hd2, _, _⟩ := addNew_spec (lookupAdj m currentId) v rest
    have h1 : (addNew v rest (lookupAdj m currentId)).1 = v ++ d := by rw [hd1]
    have h2 : (addNew v rest (lookupAdj m currentId)).2 = rest ++ d := by rw [hd1]
    have hPd : ∀ y ∈ d, P y := fun y hy =>
      hstep currentId y (hq currentId (List.mem_cons_self _ _)) (hd2 y hy).1
    refine ih ?_ ?_ x hx
    · rw [h1]
      intro y hy
      rcases List.mem_append.mp hy with h | h
      exacts [hv y h, hPd y h]
    · rw [h2]
      intro y hy
      rcases List.mem_append.mp hy with h | h
      exacts [hq y (List.mem_cons_of_mem _ h), hPd y h]

theorem bfsAux_closed (m : AdjMap) :
    ∀ visited queue : List Nat,
      (∀ x ∈ visited, x ∈ queue ∨ ∀ y ∈ lookupAdj m x, y ∈ visited) →
      (∀ x ∈ queue, x ∈ visited) →
      ∀ x ∈ bfsAux m visited queue, ∀ y ∈ lookupAdj m x, y ∈ bfsAux m visited queue := by
  intro visited queue
  induction visited, queue using bfsAux.induct m with
  | case1 v =>
    intro hinv _ x hx y hy
    rw [bfsAux_nil] at hx ⊢
    rcases hinv x hx with h | h
    · simp at h
    · exact h y hy
  | case2 v currentId rest ih =>
    intro hinv hqv
    obtain ⟨d, hd1, hd2, hd3, hd4⟩ := addNew_spec (lookupAdj m currentId) v rest
    have h1 : (addNew v rest (lookupAdj m currentId)).1 = v ++ d := by rw [hd1]
    have h2 : (addNew v rest (lookupAdj m currentId)).2 = rest ++ d := by rw [hd1]
    rw [bfsAux_cons]
    refine ih ?_ ?_
    · rw [h1, h2]
      intro x hx
      rcases List.mem_append.mp hx with hxv | hxd
      · rcases hinv x hxv with hq | hcl
        · rcases List.mem_cons.mp hq with rfl | hr
          · exact Or.inr (fun y hy => hd4 y hy)
          · exact Or.inl (List.mem_append_left _ hr)
        · exact Or.inr (fun y hy => List.mem_append_left _ (hcl y hy))
      · exact Or.inl (List.mem_append_right _ hxd)
    · rw [h1, h2]
      intro x hx
      rcases List.mem_append.mp hx with hr | hdd
      · exact List.mem_append_left _ (hqv x (List.mem_cons_of_mem _ hr))
      · exact List.mem_append_right _ hdd

theorem bfsAux_nodup (m : AdjMap) :
    ∀ visited queue : List Nat, visited.Nodup → (bfsAux m visited queue).Nodup := by
  intro visited queue
  induction visited, queue using bfsAux.induct m with
  | case1 v =>
    intro h
    rw [bfsAux_nil]
    exact h
  | case2 v currentId rest ih =>
    intro h
    obtain ⟨d, hd1, hd2, hd3, _⟩ := addNew_spec (lookupAdj m currentId) v rest
    have h1 : (addNew v rest (lookupAdj m currentId)).1 = v ++ d := by rw [hd1]
    rw [bfsAux_cons]
    refine ih ?_
    rw [h1]
    exact h.append hd3 (fun x hx hxd => (hd2 x hxd).2 hx)

theorem mem_bfsAux_iff (m : AdjMap) (s y : Nat) :
    y ∈ bfsAux m [s] [s] ↔ Reach m s y := by
  constructor
  · intro hy
    refine bfsAux_sound m (Reach m s) ?_ [s] [s] ?_ ?_ y hy
    · exact fun u v hu hv => Relation.ReflTransGen.tail hu hv
    · intro x hx
      rw [List.mem_singleton] at hx
      subst hx
      exact Relation.ReflTransGen.refl
    · intro x hx
      rw [List.mem_singleton] at hx
      subst hx
      exact Relation.ReflTransGen.refl
  · intro h
    induction h with
    | refl => exact bfsAux_mono m [s] [s] s (List.mem_singleton_self s)
    | tail hab hbc ih =>
      exact bfsAux_closed m [s] [s] (fun x hx => Or.inl hx) (fun x hx => hx) _ ih _ hbc

theorem mem_addProcessed (ids : List Nat) :
    ∀ processed x, x ∈ addProcessed processed ids ↔ x ∈ processed ∨ x ∈ ids := by
  induction ids with
  | nil => intro pr x; simp [addProcessed]
  | cons i ids ih =>
    intro pr x
    have hstep : addProcessed pr (i :: ids) =
        addProcessed (if pr.contains i then pr else pr ++ [i]) ids := by
      simp [addProcessed]
    rw [hstep, ih]
    by_cases hc : pr.contains i = true
    · rw [if_pos hc]
      have : i ∈ pr := by simpa using hc
      simp only [List.mem_cons]
      constructor
      · rintro (h | h)
        exacts [Or.inl h, Or.inr (Or.inr h)]
      · rintro (h | rfl | h)
        exacts [Or.inl h, Or.inl this, Or.inr h]
    · rw [if_neg hc]
      simp only [List.mem_append, List.mem_singleton, List.mem_cons]
      tauto

theorem lookupAdj_append_singleton (m : AdjMap) (k x : Nat) :
    lookupAdj (m ++ [(k, [])]) x = lookupAdj m x := by
  induction m with
  | nil =>
    by_cases h : k == x
    · simp [lookupAdj, List.find?, h]
    · simp [lookupAdj, List.find?, h]
  | cons p m ih =>
    by_cases h : p.1 == x
    · simp [lookupAdj, List.find?, h]
    · simpa [lookupAdj, List.find?, h] using ih

theorem lookupAdj_ensureKey (m : AdjMap) (k x : Nat) :
    lookupAdj (ensureKey m k) x = lookupAdj m x := by
  unfold ensureKey
  by_cases h : m.any (fun p => p.1 == k)
  · rw [if_pos h]
  · rw [if_neg h]
    exact lookupAdj_append_singleton m k x

theorem mem_keys_ensureKey (m : AdjMap) (k x : Nat) :
    x ∈ keys (ensureKey m k) ↔ x ∈ keys m ∨ x = k := by
  unfold ensureKey
  by_cases h : m.any (fun p => p.1 == k)
  · rw [if_pos h]
    have hk : k ∈ keys m := by
      rcases List.any_eq_true.mp h with ⟨p, hp, hpk⟩
      exact List.mem_map.mpr ⟨p, hp, by simpa using hpk⟩
    constructor
    · exact Or.inl
    · rintro (hx | rfl)
      exacts [hx, hk]
  · rw [if_neg h]
    simp [keys]

theorem lookupAdj_cons (p : Nat × List Nat) (m : AdjMap) (x : Nat) :
    lookupAdj (p :: m) x = if p.1 = x then p.2 else lookupAdj m x := by
  unfold lookupAdj
  by_cases h : p.1 = x
  · rw [List.find?_cons_of_pos _ (by simpa using h), if_pos h]
  · rw [List.find?_cons_of_neg _ (by simpa using h), if_neg h]

theorem addToSet_cons (p : Nat × List Nat) (m : AdjMap) (k v : Nat) :
    addToSet (p :: m) k v =
      (if p.1 == k then (p.1, if p.2.contains v then p.2 else p.2 ++ [v]) else p) ::
        addToSet m k v := rfl

theorem keys_addToSet (m : AdjMap) (k v : Nat) : keys (addToSet m k v) = keys m := by
  induction m with
  | nil => rfl
  | cons p m ih =>
    rw [addToSet_cons]
    by_cases h : p.1 = k
    · rw [if_pos (by simpa using h)]
      simpa [keys] using ih
    · rw [if_neg (by simpa using h)]
      simpa [keys] using ih

theorem lookupAdj_addToSet_ne (m : AdjMap) (k v x : Nat) (hx : x ≠ k) :
    lookupAdj (addToSet m k v) x = lookupAdj m x := by
  induction m with
  | nil => rfl
  | cons p m ih =>
    rw [addToSet_cons]
    by_cases hpk : p.1 = k
    · rw [if_pos (by simpa using hpk)]
      have hpx : ¬ p.1 = x := by
        rw [hpk]
        exact fun he => hx he.symm
      rw [lookupAdj_cons, lookupAdj_cons, if_neg hpx, if_neg hpx]
      exact ih
    · rw [if_neg (by simpa using hpk)]
      rw [lookupAdj_cons, lookupAdj_cons]
      by_cases hpx : p.1 = x
      · rw [if_pos hpx, if_pos hpx]
      · rw [if_neg hpx, if_neg hpx]
        exact ih

theorem lookupAdj_addToSet_self (m : AdjMap) (k v : Nat) (hk : k ∈ keys m) :
    lookupAdj (addToSet m k v) k =
      (if (lookupAdj m k).contains v then lookupAdj m k else lookupAdj m k ++ [v]) := by
  induction m with
  | nil => simp [keys] at hk
  | cons p m ih =>
    rw [addToSet_cons]
    by_cases hpk : p.1 = k
    · rw [if_pos (by simpa using hpk)]
      rw [lookupAdj_cons, lookupAdj_cons, if_pos hpk, if_pos hpk]
    · rw [if_neg (by simpa using hpk)]
      rw [lookupAdj_cons, lookupAdj_cons, if_neg hpk, if_neg hpk]
      refine ih ?_
      rcases List.mem_cons.mp hk with heq | hmem
      · exact absurd heq.symm hpk
      · exact hmem

theorem mem_if_contains_append (l : List Nat) (v y : Nat) :
    (y ∈ (if l.contains v then l else l ++ [v])) ↔ y ∈ l ∨ y = v := by
  by_cases h : l.contains v
  · rw [if_pos h]
    have hv : v ∈ l := by simpa using h
    constructor
    · exact Or.inl
    · rintro (hy | rfl)
      exacts [hy, hv]
  · rw [if_neg h]
    simp

theorem mem_lookupAdj_addToSet (m : AdjMap) (k v x y : Nat) (hk : k ∈ keys m) :
    y ∈ lookupAdj (addToSet m k v) x ↔ y ∈ lookupAdj m x ∨ (x = k ∧ y = v) := by
  by_cases hx : x = k
  · subst hx
    rw [lookupAdj_addToSet_self _ _ _ hk, mem_if_contains_append]
    constructor
    · rintro (h | rfl)
      exacts [Or.inl h, Or.inr ⟨rfl, rfl⟩]
    · rintro (h | ⟨-, rfl⟩)
      exacts [Or.inl h, Or.inr rfl]
  · rw [lookupAdj_addToSet_ne _ _ _ _ hx]
    constructor
    · exact Or.inl
    · rintro (h | ⟨hxk, -⟩)
      exacts [h, absurd hxk hx]

theorem mem_lookupAdj_recordOverlap (m : AdjMap) (a b x y : Nat) :
    y ∈ lookupAdj (recordOverlap m a b) x ↔
      y ∈ lookupAdj m x ∨ (x = a ∧ y = b) ∨ (x = b ∧ y = a) := by
  unfold recordOverlap
  have hka : a ∈ keys (ensureKey (ensureKey m a) b) := by
    rw [mem_keys_ensureKey, mem_keys_ensureKey]
    exact Or.inl (Or.inr rfl)
  have hkb : b ∈ keys (ensureKey (ensureKey m a) b) := by
    rw [mem_keys_ensureKey]
    exact Or.inr rfl
  have hkb2 : b ∈ keys (addToSet (ensureKey (ensureKey m a) b) a b) := by
    rw [keys_addToSet]
    exact hkb
  have hbase : ∀ z w, w ∈ lookupAdj (ensureKey (ensureKey m a) b) z ↔ w ∈ lookupAdj m z := by
    intro z w
    rw [lookupAdj_ensureKey, lookupAdj_ensureKey]
  rw [mem_lookupAdj_addToSet _ _ _ _ _ hkb2, mem_lookupAdj_addToSet _ _ _ _ _ hka, hbase]
  tauto

theorem mem_keys_recordOverlap (m : AdjMap) (a b x : Nat) :
    x ∈ keys (recordOverlap m a b) ↔ x ∈ keys m ∨ x = a ∨ x = b := by
  unfold recordOverlap
  rw [keys_addToSet, keys_addToSet, mem_keys_ensureKey, mem_keys_ensureKey]
  tauto

theorem mem_lookupAdj_foldRecord (ps : List (CalendarEvent × CalendarEvent)) :
    ∀ (m0 : AdjMap) (x y : Nat),
      y ∈ lookupAdj (ps.foldl (fun m pr =>
          if overlapsB pr.1 pr.2 then recordOverlap m pr.1.id pr.2.id else m) m0) x ↔
        y ∈ lookupAdj m0 x ∨ ∃ pr ∈ ps, overlapsB pr.1 pr.2 = true ∧
          ((x = pr.1.id ∧ y = pr.2.id) ∨ (x = pr.2.id ∧ y = pr.1.id)) := by
  induction ps with
  | nil =>
    intro m0 x y
    simp
  | cons pr ps ih =>
    intro m0 x y
    rw [List.foldl_cons, ih]
    by_cases h : overlapsB pr.1 pr.2 = true
    · rw [if_pos h, mem_lookupAdj_recordOverlap]
      simp only [List.mem_cons]
      constructor
      · rintro ((hm | hp) | ⟨pr', hpr', hov, hor⟩)
        · exact Or.inl hm
        · exact Or.inr ⟨pr, Or.inl rfl, h, hp⟩
        · exact Or.inr ⟨pr', Or.inr hpr', hov, hor⟩
      · rintro (hm | ⟨pr', hpr' | hpr', hov, hor⟩)
        · exact Or.inl (Or.inl hm)
        · subst hpr'
          exact Or.inl (Or.inr hor)
        · exact Or.inr ⟨pr', hpr', hov, hor⟩
    · rw [if_neg h]
      simp only [List.mem_cons]
      constructor
      · rintro (hm | ⟨pr', hpr', hov, hor⟩)
        · exact Or.inl hm
        · exact Or.inr ⟨pr', Or.inr hpr', hov, hor⟩
      · rintro (hm | ⟨pr', hpr' | hpr', hov, hor⟩)
        · exact Or.inl hm
        · subst hpr'
          exact absurd hov h
        · exact Or.inr ⟨pr', hpr', hov, hor⟩

theorem mem_keys_foldRecord (ps : List (CalendarEvent × CalendarEvent)) :
    ∀ (m0 : AdjMap) (x : Nat),
      x ∈ keys (ps.foldl (fun m pr =>
          if overlapsB pr.1 pr.2 then recordOverlap m pr.1.id pr.2.id else m) m0) ↔
        x ∈ keys m0 ∨ ∃ pr ∈ ps, overlapsB pr.1 pr.2 = true ∧
          (x = pr.1.id ∨ x = pr.2.id) := by
  induction ps with
  | nil =>
    intro m0 x
    simp
  | cons pr ps ih =>
    intro m0 x
    rw [List.foldl_cons, ih]
    by_cases h : overlapsB pr.1 pr.2 = true
    · rw [if_pos h, mem_keys_recordOverlap]
      simp only [List.mem_cons]
      constructor
      · rintro ((hm | hp) | ⟨pr', hpr', hov, hor⟩)
        · exact Or.inl hm
        · exact Or.inr ⟨pr, Or.inl rfl, h, hp⟩
        · exact Or.inr ⟨pr', Or.inr hpr', hov, hor⟩
      · rintro (hm | ⟨pr', hpr' | hpr', hov, hor⟩)
        · exact Or.inl (Or.inl hm)
        · subst hpr'
          exact Or.inl (Or.inr hor)
        · exact Or.inr ⟨pr', hpr', hov, hor⟩
    · rw [if_neg h]
      simp only [List.mem_cons]
      constructor
      · rintro (hm | ⟨pr', hpr', hov, hor⟩)
        · exact Or.inl hm
        · exact Or.inr ⟨pr', Or.inr hpr', hov, hor⟩
      · rintro (hm | ⟨pr', hpr' | hpr', hov, hor⟩)
        · exact Or.inl hm
        · subst hpr'
          exact absurd hov h
        · exact Or.inr ⟨pr', hpr', hov, hor⟩

theorem mem_lookupAdj_buildConflictMap (events : List CalendarEvent) (x y : Nat) :
    y ∈ lookupAdj (buildConflictMap events) x ↔
      ∃ pr ∈ pairsAfter (sortedNonAllDay events), overlapsB pr.1 pr.2 = true ∧
        ((x = pr.1.id ∧ y = pr.2.id) ∨ (x = pr.2.id ∧ y = pr.1.id)) := by
  unfold buildConflictMap
  rw [mem_lookupAdj_foldRecord]
  simp [lookupAdj]

theorem mem_keys_buildConflictMap (events : List CalendarEvent) (x : Nat) :
    x ∈ keys (buildConflictMap events) ↔
      ∃ pr ∈ pairsAfter (sortedNonAllDay events), overlapsB pr.1 pr.2 = true ∧
        (x = pr.1.id ∨ x = pr.2.id) := by
  unfold buildConflictMap
  rw [mem_keys_foldRecord]
  simp [keys]

theorem pairsAfter_split {α : Type} (l : List α) (a b : α) :
    (a, b) ∈ pairsAfter l → ∃ l₁ l₂, l = l₁ ++ a :: l₂ ∧ b ∈ l₂ := by
  induction l with
  | nil => intro h; simp [pairsAfter] at h
  | cons x xs ih =>
    intro h
    simp only [pairsAfter] at h
    rcases List.mem_append.mp h with hm | hp
    · rcases List.mem_map.mp hm with ⟨y, hy, hxy⟩
      obtain ⟨rfl, rfl⟩ := Prod.mk.injEq .. ▸ hxy
      exact ⟨[], xs, by simpa using hy⟩
    · obtain ⟨l₁, l₂, heq, hb⟩ := ih hp
      exact ⟨x :: l₁, l₂, by rw [heq]; rfl, hb⟩

theorem pairsAfter_total {α : Type} (l : List α) (a b : α) (ha : a ∈ l) (hb : b ∈ l)
    (hne : a ≠ b) : (a, b) ∈ pairsAfter l ∨ (b, a) ∈ pairsAfter l := by
  induction l with
  | nil => simp at ha
  | cons x xs ih =>
    rcases List.mem_cons.mp ha with rfl | ha'
    · have hb' : b ∈ xs := by
        rcases List.mem_cons.mp hb with rfl | h
        · exact absurd rfl hne
        · exact h
      exact Or.inl (by
        simp only [pairsAfter, List.mem_append]
        exact Or.inl (List.mem_map.mpr ⟨b, hb', rfl⟩))
    · rcases List.mem_cons.mp hb with rfl | hb'
      · exact Or.inr (by
          simp only [pairsAfter, List.mem_append]
          exact Or.inl (List.mem_map.mpr ⟨a, ha', rfl⟩))
      · rcases ih ha' hb' with h | h
        · exact Or.inl (by
            simp only [pairsAfter, List.mem_append]
            exact Or.inr h)
        · exact Or.inr (by
            simp only [pairsAfter, List.mem_append]
            exact Or.inr h)

theorem sortedNonAllDay_perm (events : List CalendarEvent) :
    (sortedNonAllDay events).Perm (events.filter (fun e => !e.allDay)) :=
  List.perm_insertionSort _ _

theorem mem_sortedNonAllDay (events : List CalendarEvent) (e : CalendarEvent) :
    e ∈ sortedNonAllDay events ↔ e ∈ events ∧ e.allDay = false := by
  rw [(sortedNonAllDay_perm events).mem_iff, List.mem_filter]
  simp

theorem sortedNonAllDay_nodup_ids (events : List CalendarEvent)
    (h : (events.map (fun e => e.id)).Nodup) :
    ((sortedNonAllDay events).map (fun e => e.id)).Nodup := by
  refine (((sortedNonAllDay_perm events).map (fun e => e.id)).nodup_iff).mpr ?_
  exact h.sublist ((List.filter_sublist events).map (fun e => e.id))

theorem overlapsB_eq_strict (a b : CalendarEvent) (ha : a.start ≤ a.end_)
    (hb : b.start ≤ b.end_) :
    overlapsB a b = true ↔ a.start < b.end_ ∧ b.start < a.end_ := by
  unfold overlapsB areIntervalsOverlapping
  rw [min_eq_left ha, min_eq_left hb, max_eq_right ha, max_eq_right hb]
  simp

theorem mem_lookupAdj_iff_overlapAdj (events : List CalendarEvent)
    (hids : (events.map (fun e => e.id)).Nodup)
    (hwf : ∀ e ∈ events, e.start ≤ e.end_) (x y : Nat) :
    y ∈ lookupAdj (buildConflictMap events) x ↔ OverlapAdj events x y := by
  rw [mem_lookupAdj_buildConflictMap]
  constructor
  · rintro ⟨pr, hpr, hov, hor⟩
    obtain ⟨l₁, l₂, heq, hb⟩ := pairsAfter_split _ pr.1 pr.2 hpr
    have h1 : pr.1 ∈ sortedNonAllDay events := heq ▸ List.mem_append_right _ (List.mem_cons_self _ _)
    have h2 : pr.2 ∈ sortedNonAllDay events := heq ▸ List.mem_append_right _ (List.mem_cons_of_mem _ hb)
    have hne : pr.1.id ≠ pr.2.id := by
      have hnd := sortedNonAllDay_nodup_ids events hids
      rw [heq, List.map_append, List.map_cons] at hnd
      have := ((List.nodup_append.mp hnd).2.1)
      rw [List.nodup_cons] at this
      intro hcontra
      exact this.1 (hcontra ▸ List.mem_map.mpr ⟨pr.2, hb, rfl⟩)
    obtain ⟨hm1, had1⟩ := (mem_sortedNonAllDay events pr.1).mp h1
    obtain ⟨hm2, had2⟩ := (mem_sortedNonAllDay events pr.2).mp h2
    have hstrict := (overlapsB_eq_strict pr.1 pr.2 (hwf _ hm1) (hwf _ hm2)).mp hov
    rcases hor with ⟨rfl, rfl⟩ | ⟨rfl, rfl⟩
    · exact ⟨pr.1, hm1, pr.2, hm2, had1, had2, rfl, rfl, hne, hstrict.1, hstrict.2⟩
    · exact ⟨pr.2, hm2, pr.1, hm1, had2, had1, rfl, rfl, hne.symm, hstrict.2, hstrict.1⟩
  · rintro ⟨a, hma, b, hmb, hada, hadb, rfl, rfl, hne, hov1, hov2⟩
    have h1 : a ∈ sortedNonAllDay events := (mem_sortedNonAllDay events a).mpr ⟨hma, hada⟩
    have h2 : b ∈ sortedNonAllDay events := (mem_sortedNonAllDay events b).mpr ⟨hmb, hadb⟩
    have hab : a ≠ b := fun h => hne (h ▸ rfl)
    have hovB : overlapsB a b = true :=
      (overlapsB_eq_strict a b (hwf _ hma) (hwf _ hmb)).mpr ⟨hov1, hov2⟩
    have hovB' : overlapsB b a = true :=
      (overlapsB_eq_strict b a (hwf _ hmb) (hwf _ hma)).mpr ⟨hov2, hov1⟩
    rcases pairsAfter_total _ a b h1 h2 hab with hp | hp
    · exact ⟨(a, b), hp, hovB, Or.inl ⟨rfl, rfl⟩⟩
    · exact ⟨(b, a), hp, hovB', Or.inr ⟨rfl, rfl⟩⟩

theorem detectLoop_cons (m : AdjMap) (entry : Nat × List Nat)
    (rest : List (Nat × List Nat)) (processed : List Nat) :
    detectLoop m (entry :: rest) processed =
      if processed.contains entry.1 then detectLoop m rest processed
      else
        { events := bfsAux m [entry.1] [entry.1]
          type := if 2 < (bfsAux m [entry.1] [entry.1]).length then .overbooking else .overlap
          severity := severityOf (bfsAux m [entry.1] [entry.1]).length } ::
        detectLoop m rest (addProcessed processed (bfsAux m [entry.1] [entry.1])) := rfl

theorem reach_symm (m : AdjMap) (hsym : ∀ x y, y ∈ lookupAdj m x → x ∈ lookupAdj m y)
    {x y : Nat} (h : Reach m x y) : Reach m y x :=
  Relation.ReflTransGen.symmetric (fun a b hab => hsym a b hab) h

theorem detectLoop_shape (m : AdjMap) :
    ∀ (entries : List (Nat × List Nat)) (processed : List Nat),
      ∀ c ∈ detectLoop m entries processed,
        ∃ r, r ∈ keys entries ∧ r ∉ processed ∧
          c = { events := bfsAux m [r] [r]
                type := if 2 < (bfsAux m [r] [r]).length then .overbooking else .overlap
                severity := severityOf (bfsAux m [r] [r]).length } := by
  intro entries
  induction entries with
  | nil =>
    intro processed c hc
    simp [detectLoop] at hc
  | cons entry rest ih =>
    intro processed c hc
    rw [detectLoop_cons] at hc
    by_cases h : processed.contains entry.1 = true
    · rw [if_pos h] at hc
      obtain ⟨r, hr1, hr2, hr3⟩ := ih processed c hc
      exact ⟨r, List.mem_cons_of_mem _ hr1, hr2, hr3⟩
    · rw [if_neg h] at hc
      rcases List.mem_cons.mp hc with rfl | hc'
      · exact ⟨entry.1, List.mem_cons_self _ _, by simpa using h, rfl⟩
      · obtain ⟨r, hr1, hr2, hr3⟩ := ih _ c hc'
        refine ⟨r, List.mem_cons_of_mem _ hr1, fun hrp => hr2 ?_, hr3⟩
        exact (mem_addProcessed _ _ _).mpr (Or.inl hrp)

theorem detectLoop_processed (m : AdjMap)
    (hsym : ∀ x y, y ∈ lookupAdj m x → x ∈ lookupAdj m y) :
    ∀ (entries : List (Nat × List Nat)) (processed : List Nat),
      (∀ x ∈ processed, ∀ y, Reach m x y → y ∈ processed) →
      ∀ x ∈ processed, ∀ c ∈ detectLoop m entries processed, x ∉ c.events := by
  intro entries
  induction entries with
  | nil =>
    intro processed _ x _ c hc
    simp [detectLoop] at hc
  | cons entry rest ih =>
    intro processed hcl x hx c hc
    rw [detectLoop_cons] at hc
    by_cases h : processed.contains entry.1 = true
    · rw [if_pos h] at hc
      exact ih processed hcl x hx c hc
    · rw [if_neg h] at hc
      have hknp : entry.1 ∉ processed := by simpa using h
      rcases List.mem_cons.mp hc with rfl | hc'
      · intro hmem
        have hreach : Reach m entry.1 x := (mem_bfsAux_iff m entry.1 x).mp hmem
        exact hknp (hcl x hx entry.1 (reach_symm m hsym hreach))
      · refine ih _ ?_ x ((mem_addProcessed _ _ _).mpr (Or.inl hx)) c hc'
        intro z hz y hzy
        rcases (mem_addProcessed _ _ _).mp hz with hzp | hzb
        · exact (mem_addProcessed _ _ _).mpr (Or.inl (hcl z hzp y hzy))
        · have : Reach m entry.1 y :=
            Relation.ReflTransGen.trans ((mem_bfsAux_iff m entry.1 z).mp hzb) hzy
          exact (mem_addProcessed _ _ _).mpr (Or.inr ((mem_bfsAux_iff m entry.1 y).mpr this))

theorem detectLoop_count (m : AdjMap)
    (hsym : ∀ x y, y ∈ lookupAdj m x → x ∈ lookupAdj m y) :
    ∀ (entries : List (Nat × List Nat)) (processed : List Nat),
      (∀ x ∈ processed, ∀ y, Reach m x y → y ∈ processed) →
      ∀ x, x ∉ processed → (∃ r ∈ keys entries, Reach m r x) →
      (detectLoop m entries processed).countP (fun c => c.events.contains x) = 1 := by
  intro entries
  induction entries with
  | nil =>
    intro processed _ x _ hr
    obtain ⟨r, hr1, -⟩ := hr
    simp [keys] at hr1
  | cons entry rest ih =>
    intro processed hcl x hx hr
    rw [detectLoop_cons]
    by_cases h : processed.contains entry.1 = true
    · rw [if_pos h]
      obtain ⟨r, hr1, hr2⟩ := hr
      rcases List.mem_cons.mp hr1 with rfl | hr1'
      · exact absurd (hcl entry.1 (by simpa using h) x hr2) hx
      · exact ih processed hcl x hx ⟨r, hr1', hr2⟩
    · rw [if_neg h]
      have hknp : entry.1 ∉ processed := by simpa using h
      have hcl' : ∀ z ∈ addProcessed processed (bfsAux m [entry.1] [entry.1]),
          ∀ y, Reach m z y → y ∈ addProcessed processed (bfsAux m [entry.1] [entry.1]) := by
        intro z hz y hzy
        rcases (mem_addProcessed _ _ _).mp hz with hzp | hzb
        · exact (mem_addProcessed _ _ _).mpr (Or.inl (hcl z hzp y hzy))
        · have : Reach m entry.1 y :=
            Relation.ReflTransGen.trans ((mem_bfsAux_iff m entry.1 z).mp hzb) hzy
          exact (mem_addProcessed _ _ _).mpr (Or.inr ((mem_bfsAux_iff m entry.1 y).mpr this))
      by_cases hmem : x ∈ bfsAux m [entry.1] [entry.1]
      · have hzero : (detectLoop m rest
            (addProcessed processed (bfsAux m [entry.1] [entry.1]))).countP
              (fun c => c.events.contains x) = 0 := by
          refine List.countP_eq_zero.mpr ?_
          intro c hc
          have hxnot := detectLoop_processed m hsym rest _ hcl' x
            ((mem_addProcessed _ _ _).mpr (Or.inr hmem)) c hc
          simpa using hxnot
        simp only [List.countP_cons]
        rw [hzero]
        simp [hmem]
      · have hxp' : x ∉ addProcessed processed (bfsAux m [entry.1] [entry.1]) := by
          intro hxp
          rcases (mem_addProcessed _ _ _).mp hxp with hxq | hxb
          exacts [hx hxq, hmem hxb]
        have hwit : ∃ r ∈ keys rest, Reach m r x := by
          obtain ⟨r, hr1, hr2⟩ := hr
          rcases List.mem_cons.mp hr1 with rfl | hr1'
          · exact absurd ((mem_bfsAux_iff m entry.1 x).mpr hr2) hmem
          · exact ⟨r, hr1', hr2⟩
        have hrest := ih _ hcl' x hxp' hwit
        simp only [List.countP_cons]
        rw [hrest]
        simp [hmem]

theorem buildConflictMap_symm (events : List CalendarEvent) :
    ∀ x y, y ∈ lookupAdj (buildConflictMap events) x →
      x ∈ lookupAdj (buildConflictMap events) y := by
  intro x y h
  rw [mem_lookupAdj_buildConflictMap] at h ⊢
  obtain ⟨pr, hpr, hov, hor⟩ := h
  refine ⟨pr, hpr, hov, ?_⟩
  rcases hor with ⟨h1, h2⟩ | ⟨h1, h2⟩
  · exact Or.inr ⟨h2, h1⟩
  · exact Or.inl ⟨h2, h1⟩

theorem lookupAdj_endpoint_keys (events : List CalendarEvent) (x y : Nat)
    (h : y ∈ lookupAdj (buildConflictMap events) x) :
    x ∈ keys (buildConflictMap events) := by
  rw [mem_lookupAdj_buildConflictMap] at h
  rw [mem_keys_buildConflictMap]
  obtain ⟨pr, hpr, hov, hor⟩ := h
  refine ⟨pr, hpr, hov, ?_⟩
  rcases hor with ⟨h1, -⟩ | ⟨h1, -⟩
  · exact Or.inl h1
  · exact Or.inr h1

theorem keys_partner (events : List CalendarEvent) :
    ∀ r ∈ keys (buildConflictMap events),
      ∃ y, y ∈ lookupAdj (buildConflictMap events) r := by
  intro r hr
  rw [mem_keys_buildConflictMap] at hr
  obtain ⟨pr, hpr, hov, hor⟩ := hr
  rcases hor with h1 | h2
  · exact ⟨pr.2.id, (mem_lookupAdj_buildConflictMap events r pr.2.id).mpr
      ⟨pr, hpr, hov, Or.inl ⟨h1, rfl⟩⟩⟩
  · exact ⟨pr.1.id, (mem_lookupAdj_buildConflictMap events r pr.1.id).mpr
      ⟨pr, hpr, hov, Or.inr ⟨h2, rfl⟩⟩⟩

theorem no_self_loop (events : List CalendarEvent)
    (hids : (events.map (fun e => e.id)).Nodup)
    (hwf : ∀ e ∈ events, e.start ≤ e.end_) (x : Nat) :
    x ∉ lookupAdj (buildConflictMap events) x := by
  intro h
  obtain ⟨a, -, b, -, -, -, -, -, hne, -, -⟩ :=
    (mem_lookupAdj_iff_overlapAdj events hids hwf x x).mp h
  exact hne rfl

theorem reach_iff_connected (events : List CalendarEvent)
    (hids : (events.map (fun e => e.id)).Nodup)
    (hwf : ∀ e ∈ events, e.start ≤ e.end_) (x y : Nat) :
    Reach (buildConflictMap events) x y ↔ Connected events x y := by
  constructor
  · exact Relation.ReflTransGen.mono
      (fun a b hab => (mem_lookupAdj_iff_overlapAdj events hids hwf a b).mp hab)
  · exact Relation.ReflTransGen.mono
      (fun a b hab => (mem_lookupAdj_iff_overlapAdj events hids hwf a b).mpr hab)

theorem two_mem_le_length {l : List Nat} {a b : Nat} (ha : a ∈ l) (hb : b ∈ l)
    (hne : a ≠ b) : 2 ≤ l.length := by
  cases l with
  | nil => simp at ha
  | cons x xs =>
    cases xs with
    | nil =>
      rw [List.mem_singleton] at ha hb
      exact absurd (ha.trans hb.symm) hne
    | cons y ys => simp [List.length_cons]

/-- Every id in an emitted conflict has at least one overlap partner in the
conflict map. -/
theorem detectConflicts_member_partner (events : List CalendarEvent) :
    ∀ c ∈ detectConflicts events, ∀ x ∈ c.events,
      ∃ y, y ∈ lookupAdj (buildConflictMap events) x := by
  intro c hc x hx
  obtain ⟨r, hrk, -, rfl⟩ := detectLoop_shape (buildConflictMap events)
    (buildConflictMap events) [] c hc
  have hreach : Reach (buildConflictMap events) r x :=
    (mem_bfsAux_iff (buildConflictMap events) r x).mp hx
  rcases Relation.ReflTransGen.cases_tail hreach with rfl | ⟨z, -, hzx⟩
  · exact keys_partner events x hrk
  · exact ⟨z, buildConflictMap_symm events z x hzx⟩

/-- Structure of every emitted conflict: duplicate-free member list of size
at least two that is exactly one connected component of the strict-overlap
graph, with severity and type determined by the component size. -/
theorem detectConflicts_char (events : List CalendarEvent)
    (hids : (events.map (fun e => e.id)).Nodup)
    (hwf : ∀ e ∈ events, e.start ≤ e.end_) :
    ∀ c ∈ detectConflicts events, c.events.Nodup ∧ 2 ≤ c.events.length ∧
      (∃ r ∈ c.events, ∀ y, (y ∈ c.events ↔ Connected events r y)) ∧
      c.severity = severityOf c.events.length ∧
      c.type = (if 2 < c.events.length then ConflictType.overbooking
        else ConflictType.overlap) := by
  intro c hc
  obtain ⟨r, hrk, -, rfl⟩ := detectLoop_shape (buildConflictMap events)
    (buildConflictMap events) [] c hc
  have hrmem : r ∈ bfsAux (buildConflictMap events) [r] [r] :=
    bfsAux_mono _ [r] [r] r (List.mem_singleton_self r)
  obtain ⟨y, hy⟩ := keys_partner events r hrk
  have hymem : y ∈ bfsAux (buildConflictMap events) [r] [r] :=
    (mem_bfsAux_iff _ r y).mpr (Relation.ReflTransGen.single hy)
  have hyne : y ≠ r := by
    intro heq
    exact no_self_loop events hids hwf r (heq ▸ hy)
  refine ⟨bfsAux_nodup _ [r] [r] (List.nodup_singleton r),
    two_mem_le_length hymem hrmem hyne, ⟨r, hrmem, ?_⟩, rfl, rfl⟩
  intro z
  rw [mem_bfsAux_iff, reach_iff_connected events hids hwf]

/-- Every id with at least one strict-overlap partner lies in exactly one
emitted conflict. -/
theorem detectConflicts_count (events : List CalendarEvent)
    (hids : (events.map (fun e => e.id)).Nodup)
    (hwf : ∀ e ∈ events, e.start ≤ e.end_) (x y : Nat)
    (h : OverlapAdj events x y) :
    (detectConflicts events).countP (fun c => c.events.contains x) = 1 := by
  have hedge : y ∈ lookupAdj (buildConflictMap events) x :=
    (mem_lookupAdj_iff_overlapAdj events hids hwf x y).mpr h
  have hkey : x ∈ keys (buildConflictMap events) :=
    lookupAdj_endpoint_keys events x y hedge
  exact detectLoop_count (buildConflictMap events) (buildConflictMap_symm events)
    (buildConflictMap events) [] (fun z hz => by simp at hz) x (by simp)
    ⟨x, hkey, Relation.ReflTransGen.refl⟩

/-- Ids with no strict-overlap partner (in particular the ids of isolated
events) appear in no emitted conflict. -/
theorem detectConflicts_isolated (events : List CalendarEvent)
    (hids : (events.map (fun e => e.id)).Nodup)
    (hwf : ∀ e ∈ events, e.start ≤ e.end_) (x : Nat)
    (h : ¬ ∃ y, OverlapAdj events x y) :
    ∀ c ∈ detectConflicts events, x ∉ c.events := by
  intro c hc hx
  obtain ⟨y, hy⟩ := detectConflicts_member_partner events c hc x hx
  exact h ⟨y, (mem_lookupAdj_iff_overlapAdj events hids hwf x y).mp hy⟩

/-- No conflict group ever contains the id of an all-day event. -/
theorem detectConflicts_allDay (events : List CalendarEvent)
    (hids : (events.map (fun e => e.id)).Nodup)
    (e : CalendarEvent) (he : e ∈ events) (had : e.allDay = true) :
    ∀ c ∈ detectConflicts events, e.id ∉ c.events := by
  intro c hc hx
  obtain ⟨y, hy⟩ := detectConflicts_member_partner events c hc e.id hx
  rw [mem_lookupAdj_buildConflictMap] at hy
  obtain ⟨pr, hpr, -, hor⟩ := hy
  obtain ⟨l₁, l₂, heq, hb⟩ := pairsAfter_split _ pr.1 pr.2 hpr
  have h1 : pr.1 ∈ sortedNonAllDay events :=
    heq ▸ List.mem_append_right _ (List.mem_cons_self _ _)
  have h2 : pr.2 ∈ sortedNonAllDay events :=
    heq ▸ List.mem_append_right _ (List.mem_cons_of_mem _ hb)
  have key : ∀ a : CalendarEvent, a ∈ sortedNonAllDay events → a.id = e.id → False := by
    intro a ha haid
    obtain ⟨hma, hada⟩ := (mem_sortedNonAllDay events a).mp ha
    have : a = e := List.inj_on_of_nodup_map hids hma he haid
    rw [this, had] at hada
    simp at hada
  rcases hor with ⟨h1', -⟩ | ⟨h1', -⟩
  · exact key pr.1 h1 h1'.symm
  · exact key pr.2 h2 h1'.symm

theorem areIntervalsOverlapping_eq_strict (s1 e1 s2 e2 : Int) (h1 : s1 ≤ e1)
    (h2 : s2 ≤ e2) :
    areIntervalsOverlapping s1 e1 s2 e2 = true ↔ s1 < e2 ∧ s2 < e1 := by
  unfold areIntervalsOverlapping
  rw [min_eq_left h1, min_eq_left h2, max_eq_right h1, max_eq_right h2]
  simp

/-- In a two-event list, any strict-overlap edge is between the two events,
and forces the full pairwise overlap condition. -/
theorem overlapAdj_two (A B : CalendarEvent) (x y : Nat)
    (h : OverlapAdj [A, B] x y) :
    A.allDay = false ∧ B.allDay = false ∧ A.start < B.end_ ∧ B.start < A.end_ := by
  obtain ⟨a, ha, b, hb, hada, hadb, rfl, rfl, hne, hov1, hov2⟩ := h
  have hmem : ∀ c : CalendarEvent, c ∈ [A, B] → c = A ∨ c = B := by
    intro c hc
    rcases List.mem_cons.mp hc with rfl | hc'
    · exact Or.inl rfl
    · exact Or.inr (List.mem_singleton.mp hc')
  rcases hmem a ha with rfl | rfl <;> rcases hmem b hb with rfl | rfl
  · exact absurd rfl hne
  · exact ⟨hada, hadb, hov1, hov2⟩
  · exact ⟨hadb, hada, hov2, hov1⟩
  · exact absurd rfl hne

theorem detectConflicts_eq_nil_of_no_overlap (events : List CalendarEvent)
    (hids : (events.map (fun e => e.id)).Nodup)
    (hwf : ∀ e ∈ events, e.start ≤ e.end_)
    (h : ∀ x y, ¬ OverlapAdj events x y) : detectConflicts events = [] := by
  rw [List.eq_nil_iff_forall_not_mem]
  intro c hc
  obtain ⟨-, -, ⟨r, hr, -⟩, -, -⟩ := detectConflicts_char events hids hwf c hc
  obtain ⟨y, hy⟩ := detectConflicts_member_partner events c hc r hr
  exact h r y ((mem_lookupAdj_iff_overlapAdj events hids hwf r y).mp hy)

/-- C1: for an input of exactly two events with distinct ids and well-formed
intervals, `detectConflicts` reports a conflict containing both iff both are
non-all-day and strictly overlap; touching events produce no conflict at
all; and no input ever yields a conflict group containing an all-day
event's id. -/
theorem detectConflicts_pair_iff (A B : CalendarEvent)
    (hid : A.id ≠ B.id) (hwfA : A.start ≤ A.end_) (hwfB : B.start ≤ B.end_) :
    ((∃ c ∈ detectConflicts [A, B], A.id ∈ c.events ∧ B.id ∈ c.events) ↔
      (A.allDay = false ∧ B.allDay = false ∧ A.start < B.end_ ∧ B.start < A.end_)) ∧
    (A.end_ = B.start → detectConflicts [A, B] = []) ∧
    (∀ events : List CalendarEvent, (events.map (fun e => e.id)).Nodup →
      ∀ e ∈ events, e.allDay = true →
        ∀ c ∈ detectConflicts events, e.id ∉ c.events) := by
  have hids : (([A, B]).map (fun e => e.id)).Nodup := by
    simp [List.nodup_cons, hid]
  have hwf : ∀ e ∈ [A, B], e.start ≤ e.end_ := by
    intro e he
    rcases List.mem_cons.mp he with rfl | he'
    · exact hwfA
    · rw [List.mem_singleton.mp he']
      exact hwfB
  refine ⟨⟨?_, ?_⟩, ?_, ?_⟩
  · rintro ⟨c, hc, hcA, -⟩
    obtain ⟨y, hy⟩ := detectConflicts_member_partner [A, B] c hc A.id hcA
    exact overlapAdj_two A B A.id y
      ((mem_lookupAdj_iff_overlapAdj [A, B] hids hwf A.id y).mp hy)
  · rintro ⟨hadA, hadB, hov1, hov2⟩
    have hadj : OverlapAdj [A, B] A.id B.id :=
      ⟨A, List.mem_cons_self _ _, B, List.mem_cons_of_mem _ (List.mem_singleton_self _),
        hadA, hadB, rfl, rfl, hid, hov1, hov2⟩
    have hcount := detectConflicts_count [A, B] hids hwf A.id B.id hadj
    have hpos : 0 < (detectConflicts [A, B]).countP (fun c => c.events.contains A.id) := by
      omega
    obtain ⟨c, hc, hcA⟩ := List.countP_pos_iff.mp hpos
    have hcA' : A.id ∈ c.events := by simpa using hcA
    obtain ⟨-, -, ⟨r, -, hiff⟩, -, -⟩ := detectConflicts_char [A, B] hids hwf c hc
    refine ⟨c, hc, hcA', ?_⟩
    rw [hiff]
    exact Relation.ReflTransGen.tail ((hiff A.id).mp hcA') hadj
  · intro htouch
    refine detectConflicts_eq_nil_of_no_overlap [A, B] hids hwf ?_
    intro x y hadj
    obtain ⟨-, -, -, hov2⟩ := overlapAdj_two A B x y hadj
    rw [htouch] at hov2
    exact lt_irrefl _ hov2
  · intro events hids' e he had c hc
    exact detectConflicts_allDay events hids' e he had c hc

/-- C1 witness: two concrete overlapping timed events with distinct ids are
reported in one conflict, and concrete touching events yield no conflict. -/
theorem detectConflicts_pair_iff_witness :
    (∃ c ∈ detectConflicts
        [⟨0, 540, 630, false, none⟩, ⟨1, 600, 660, false, none⟩],
      (0 : Nat) ∈ c.events ∧ (1 : Nat) ∈ c.events) ∧
    detectConflicts [⟨2, 540, 600, false, none⟩, ⟨3, 600, 660, false, none⟩] = [] := by
  constructor
  · exact (detectConflicts_pair_iff ⟨0, 540, 630, false, none⟩ ⟨1, 600, 660, false, none⟩
      (by decide) (by decide) (by decide)).1.mpr (by decide)
  · exact (detectConflicts_pair_iff ⟨2, 540, 600, false, none⟩ ⟨3, 600, 660, false, none⟩
      (by decide) (by decide) (by decide)).2.1 (by decide)

/-- C2: with distinct ids and well-formed intervals, `detectConflicts` emits
exactly one conflict per connected component of size at least two of the
strict-overlap graph — each emitted member list is one full component, every
id with an overlap partner is counted exactly once, isolated ids appear
nowhere, and severity/type are the stated functions of component size. -/
theorem detectConflicts_components (events : List CalendarEvent)
    (hids : (events.map (fun e => e.id)).Nodup)
    (hwf : ∀ e ∈ events, e.start ≤ e.end_) :
    (∀ c ∈ detectConflicts events, c.events.Nodup ∧ 2 ≤ c.events.length ∧
      (∃ r ∈ c.events, ∀ y, (y ∈ c.events ↔ Connected events r y)) ∧
      (c.events.length = 2 → c.severity = Severity.low) ∧
      (c.events.length = 3 → c.severity = Severity.medium) ∧
      (4 ≤ c.events.length → c.severity = Severity.high) ∧
      (c.type = ConflictType.overbooking ↔ 2 < c.events.length)) ∧
    (∀ x y, OverlapAdj events x y →
      (detectConflicts events).countP (fun c => c.events.contains x) = 1) ∧
    (∀ x, (¬ ∃ y, OverlapAdj events x y) →
      ∀ c ∈ detectConflicts events, x ∉ c.events) := by
  refine ⟨?_, detectConflicts_count events hids hwf,
    detectConflicts_isolated events hids hwf⟩
  intro c hc
  obtain ⟨hnd, hlen, hcomp, hsev, htyp⟩ := detectConflicts_char events hids hwf c hc
  refine ⟨hnd, hlen, hcomp, ?_, ?_, ?_, ?_⟩
  · intro h2
    rw [hsev, h2]
    rfl
  · intro h3
    rw [hsev, h3]
    rfl
  · intro h4
    rw [hsev]
    unfold severityOf
    rw [if_pos (by omega)]
  · rw [htyp]
    by_cases h : 2 < c.events.length
    · simp [h]
    · simp [h]

/-- C2 witness: in a concrete transitive chain of three events (first
overlaps second, second overlaps third, first and third disjoint), the id of
the first event lands in exactly one emitted conflict. -/
theorem detectConflicts_components_witness :
    (detectConflicts [⟨0, 540, 630, false, none⟩, ⟨1, 600, 660, false, none⟩,
        ⟨2, 650, 700, false, none⟩]).countP (fun c => c.events.contains 0) = 1 :=
  (detectConflicts_components
    [⟨0, 540, 630, false, none⟩, ⟨1, 600, 660, false, none⟩, ⟨2, 650, 700, false, none⟩]
    (by decide) (by decide)).2.1 0 1
    ⟨⟨0, 540, 630, false, none⟩, by decide, ⟨1, 600, 660, false, none⟩, by decide,
      rfl, rfl, rfl, rfl, by decide, by decide, by decide⟩

theorem findFreeSlotsLoop_eq (events : List CalendarEvent) (wh : WorkingHours)
    (minDuration currentDay lastDay : Int) :
    findFreeSlotsLoop events wh minDuration currentDay lastDay =
      if currentDay ≤ lastDay then
        dayFreeSlots events wh minDuration currentDay ++
          findFreeSlotsLoop events wh minDuration (currentDay + 1440) lastDay
      else [] := by
  rw [findFreeSlotsLoop]
  rfl

theorem daysFrom_eq (currentDay lastDay : Int) :
    daysFrom currentDay lastDay =
      if currentDay ≤ lastDay then currentDay :: daysFrom (currentDay + 1440) lastDay
      else [] := by
  rw [daysFrom]
  rfl

theorem findFreeSlots_single_day (events : List CalendarEvent) (wh : WorkingHours)
    (minDuration t : Int) :
    findFreeSlots events t t wh minDuration =
      dayFreeSlots events wh minDuration (startOfDay t) := by
  unfold findFreeSlots
  rw [findFreeSlotsLoop_eq, if_pos le_rfl, findFreeSlotsLoop_eq, if_neg (by omega),
    List.append_nil]

theorem findFreeSlotsLoop_eq_flatMap (events : List CalendarEvent) (wh : WorkingHours)
    (minDuration : Int) : ∀ currentDay lastDay : Int,
    findFreeSlotsLoop events wh minDuration currentDay lastDay =
      (daysFrom currentDay lastDay).flatMap (dayFreeSlots events wh minDuration) := by
  intro c l
  induction c, l using daysFrom.induct with
  | case1 c l h ih =>
    rw [findFreeSlotsLoop_eq, if_pos h, daysFrom_eq, if_pos h, List.flatMap_cons, ih]
  | case2 c l h =>
    rw [findFreeSlotsLoop_eq, if_neg h, daysFrom_eq, if_neg h, List.flatMap_nil]

theorem mem_daysFrom : ∀ currentDay lastDay day : Int,
    day ∈ daysFrom currentDay lastDay ↔
      (∃ k : Nat, day = currentDay + 1440 * k) ∧ day ≤ lastDay := by
  have hfwd : ∀ c l day : Int, day ∈ daysFrom c l →
      (∃ k : Nat, day = c + 1440 * k) ∧ day ≤ l := by
    intro c l
    induction c, l using daysFrom.induct with
    | case1 c l h ih =>
      intro day hday
      rw [daysFrom_eq, if_pos h] at hday
      rcases List.mem_cons.mp hday with rfl | hday'
      · exact ⟨⟨0, by omega⟩, h⟩
      · obtain ⟨⟨k, hk⟩, hle⟩ := ih day hday'
        exact ⟨⟨k + 1, by push_cast at hk ⊢; omega⟩, hle⟩
    | case2 c l h =>
      intro day hday
      rw [daysFrom_eq, if_neg h] at hday
      simp at hday
  have hbwd : ∀ (k : Nat) (c l day : Int), day = c + 1440 * k → day ≤ l →
      day ∈ daysFrom c l := by
    intro k
    induction k with
    | zero =>
      intro c l day hday hle
      have hdc : day = c := by
        push_cast at hday
        omega
      subst hdc
      rw [daysFrom_eq, if_pos hle]
      exact List.mem_cons_self _ _
    | succ k ih =>
      intro c l day hday hle
      rw [daysFrom_eq, if_pos (by push_cast at hday; omega)]
      refine List.mem_cons_of_mem _ (ih (c + 1440) l day ?_ hle)
      push_cast at hday ⊢
      omega
  intro c l day
  exact ⟨hfwd c l day, fun ⟨⟨k, hk⟩, hle⟩ => hbwd k c l day hk hle⟩

theorem dayFreeSlots_nil (wh : WorkingHours) (minDuration day : Int)
    (hwh : day + wh.startHour * 60 + wh.startMinute < day + wh.endHour * 60 + wh.endMinute)
    (hmin : minDuration ≤ (day + wh.endHour * 60 + wh.endMinute) -
      (day + wh.startHour * 60 + wh.startMinute)) :
    dayFreeSlots [] wh minDuration day =
      [⟨day + wh.startHour * 60 + wh.startMinute, day + wh.endHour * 60 + wh.endMinute,
        (day + wh.endHour * 60 + wh.endMinute) -
          (day + wh.startHour * 60 + wh.startMinute)⟩] := by
  unfold dayFreeSlots
  simp only [List.filter_nil, List.insertionSort, List.foldl_nil]
  rw [if_pos hwh, if_pos hmin]
  simp

theorem dayFreeSlots_single_covered (ev : CalendarEvent) (wh : WorkingHours)
    (minDuration day : Int) (had : ev.allDay = false)
    (hwh : day + wh.startHour * 60 + wh.startMinute ≤ day + wh.endHour * 60 + wh.endMinute)
    (hcov1 : ev.start ≤ day + wh.startHour * 60 + wh.startMinute)
    (hcov2 : day + wh.endHour * 60 + wh.endMinute ≤ ev.end_) :
    dayFreeSlots [ev] wh minDuration day = [] := by
  obtain ⟨evid, es, ee, ead, ecat⟩ := ev
  simp only at had hcov1 hcov2
  subst had
  unfold dayFreeSlots
  set ds := day + wh.startHour * 60 + wh.startMinute with hds
  set de := day + wh.endHour * 60 + wh.endMinute with hde
  have hrel : (!(false : Bool) && (isWithinInterval es ds de ||
      isWithinInterval ee ds de ||
      (decide (es < ds) && decide (ee > de)))) = true := by
    simp only [Bool.not_false, Bool.true_and, isWithinInterval, min_eq_left hwh,
      max_eq_right hwh, Bool.or_eq_true, Bool.and_eq_true, decide_eq_true_eq]
    omega
  simp only [List.filter_cons, List.filter_nil]
  rw [hrel]
  simp only [if_true, List.insertionSort, List.orderedInsert, List.foldl_cons,
    List.foldl_nil]
  split_ifs <;> first | rfl | omega

theorem dayFreeSlots_zero_split (z : CalendarEvent) (wh : WorkingHours)
    (minDuration day : Int) (had : z.allDay = false) (hzero : z.start = z.end_)
    (hlo : day + wh.startHour * 60 + wh.startMinute < z.start)
    (hhi : z.start < day + wh.endHour * 60 + wh.endMinute)
    (hm1 : minDuration ≤ z.start - (day + wh.startHour * 60 + wh.startMinute))
    (hm2 : minDuration ≤ (day + wh.endHour * 60 + wh.endMinute) - z.start) :
    dayFreeSlots [z] wh minDuration day =
      [⟨day + wh.startHour * 60 + wh.startMinute, z.start,
        z.start - (day + wh.startHour * 60 + wh.startMinute)⟩,
       ⟨z.start, day + wh.endHour * 60 + wh.endMinute,
        (day + wh.endHour * 60 + wh.endMinute) - z.start⟩] := by
  obtain ⟨zid, zs, ze, zad, zcat⟩ := z
  simp only at had hzero hlo hhi hm1 hm2 ⊢
  subst had
  subst hzero
  unfold dayFreeSlots
  set ds := day + wh.startHour * 60 + wh.startMinute with hds
  set de := day + wh.endHour * 60 + wh.endMinute with hde
  have hrel : (!(false : Bool) && (isWithinInterval zs ds de ||
      isWithinInterval zs ds de ||
      (decide (zs < ds) && decide (zs > de)))) = true := by
    simp only [Bool.not_false, Bool.true_and, isWithinInterval, min_eq_left (by omega : ds ≤ de),
      max_eq_right (by omega : ds ≤ de), Bool.or_eq_true, Bool.and_eq_true, decide_eq_true_eq]
    omega
  simp only [List.filter_cons, List.filter_nil]
  rw [hrel]
  simp only [if_true, List.insertionSort, List.orderedInsert, List.foldl_cons,
    List.foldl_nil]
  split_ifs <;> first | rfl | omega

/-- C3: `findFreeSlots` is exactly the concatenation, over the inclusive
day-by-day range, of the per-day cursor scans (`dayFreeSlots`); the traversed
days are precisely the whole days from the start date's day through the end
date's day; a single day with no events and working hours 09:00-17:00 yields
exactly one slot covering the full window whenever `minDuration ≤ 480`; and a
day whose working window is entirely covered by one timed event yields zero
slots. -/
theorem findFreeSlots_spec :
    (∀ (events : List CalendarEvent) (startDate endDate : Int) (wh : WorkingHours)
      (minDuration : Int),
      findFreeSlots events startDate endDate wh minDuration =
        (daysFrom (startOfDay startDate) (startOfDay endDate)).flatMap
          (dayFreeSlots events wh minDuration)) ∧
    (∀ currentDay lastDay day : Int, day ∈ daysFrom currentDay lastDay ↔
      (∃ k : Nat, day = currentDay + 1440 * k) ∧ day ≤ lastDay) ∧
    (∀ t minDuration : Int, minDuration ≤ 480 →
      findFreeSlots [] t t ⟨9, 0, 17, 0⟩ minDuration =
        [⟨startOfDay t + 540, startOfDay t + 1020, 480⟩]) ∧
    (∀ (ev : CalendarEvent) (wh : WorkingHours) (t minDuration : Int),
      ev.allDay = false →
      wh.startHour * 60 + wh.startMinute ≤ wh.endHour * 60 + wh.endMinute →
      ev.start ≤ startOfDay t + wh.startHour * 60 + wh.startMinute →
      startOfDay t + wh.endHour * 60 + wh.endMinute ≤ ev.end_ →
      findFreeSlots [ev] t t wh minDuration = []) := by
  refine ⟨?_, mem_daysFrom, ?_, ?_⟩
  · intro events s e wh md
    unfold findFreeSlots
    exact findFreeSlotsLoop_eq_flatMap events wh md _ _
  · intro t md hmd
    rw [findFreeSlots_single_day, dayFreeSlots_nil]
    · simp only [List.cons.injEq, FreeSlot.mk.injEq, and_true]
      norm_num
    · norm_num
    · norm_num
      omega
  · intro ev wh t md had hwh hc1 hc2
    rw [findFreeSlots_single_day]
    exact dayFreeSlots_single_covered ev wh md (startOfDay t) had (by omega) hc1 hc2

/-- C3 witness: the empty-day and covered-day consequences at concrete
inputs (day 0, working hours 09:00-17:00, minimum duration 30). -/
theorem findFreeSlots_spec_witness :
    findFreeSlots [] 0 0 ⟨9, 0, 17, 0⟩ 30 = [⟨540, 1020, 480⟩] ∧
    findFreeSlots [⟨7, 0, 2000, false, none⟩] 0 0 ⟨9, 0, 17, 0⟩ 30 = [] := by
  constructor
  · exact (findFreeSlots_spec.2.2.1 0 30 (by norm_num)).trans (by decide)
  · exact findFreeSlots_spec.2.2.2 ⟨7, 0, 2000, false, none⟩ ⟨9, 0, 17, 0⟩ 0 30
      (by decide) (by decide) (by decide) (by decide)

/-- C7 counterexample: a zero-duration event strictly inside another event
is reported in a conflict with it (the claim says it never conflicts with a
non-identical event); two identical zero-duration events yield no conflict
(the claim says they do conflict); and a zero-duration event changes the
output of `findFreeSlots` (the claim says the slots are the same as if it
were absent). -/
theorem zero_duration_counterexample :
    (∃ c ∈ detectConflicts [⟨0, 0, 100, false, none⟩, ⟨1, 50, 50, false, none⟩],
      (1 : Nat) ∈ c.events ∧ (0 : Nat) ∈ c.events) ∧
    detectConflicts [⟨2, 50, 50, false, none⟩, ⟨3, 50, 50, false, none⟩] = [] ∧
    findFreeSlots [⟨4, 720, 720, false, none⟩] 0 0 ⟨9, 0, 17, 0⟩ 30 ≠
      findFreeSlots [] 0 0 ⟨9, 0, 17, 0⟩ 30 := by
  refine ⟨?_, ?_, ?_⟩
  · obtain ⟨c, hc, h0, h1⟩ := (detectConflicts_pair_iff ⟨0, 0, 100, false, none⟩
      ⟨1, 50, 50, false, none⟩ (by decide) (by decide) (by decide)).1.mpr (by decide)
    exact ⟨c, hc, h1, h0⟩
  · exact (detectConflicts_pair_iff ⟨2, 50, 50, false, none⟩ ⟨3, 50, 50, false, none⟩
      (by decide) (by decide) (by decide)).2.1 (by decide)
  · have h1 : findFreeSlots [⟨4, 720, 720, false, none⟩] 0 0 ⟨9, 0, 17, 0⟩ 30 =
        [⟨540, 720, 180⟩, ⟨720, 1020, 300⟩] := by
      rw [findFreeSlots_single_day]
      decide
    have h2 : findFreeSlots [] 0 0 ⟨9, 0, 17, 0⟩ 30 = [⟨540, 1020, 480⟩] := by
      rw [findFreeSlots_single_day]
      decide
    rw [h1, h2]
    decide

/-- C7 amended: under the strict normalised overlap test a zero-duration
event overlaps another well-formed event iff its instant lies strictly
inside the other interval; two zero-duration events at the same instant
never conflict; and in `findFreeSlots` a zero-duration timed event strictly
inside the working window splits the day's free window into the two
surrounding gaps (consuming no minutes but changing the returned slots). -/
theorem zero_duration_amended :
    (∀ z e : CalendarEvent, z.start = z.end_ → e.start ≤ e.end_ →
      (overlapsB z e = true ↔ e.start < z.start ∧ z.start < e.end_)) ∧
    (∀ z1 z2 : CalendarEvent, z1.id ≠ z2.id → z1.start = z1.end_ →
      z2.start = z2.end_ → z1.start = z2.start → detectConflicts [z1, z2] = []) ∧
    (∀ (z : CalendarEvent) (wh : WorkingHours) (t minDuration : Int),
      z.allDay = false → z.start = z.end_ →
      startOfDay t + wh.startHour * 60 + wh.startMinute < z.start →
      z.start < startOfDay t + wh.endHour * 60 + wh.endMinute →
      minDuration ≤ z.start - (startOfDay t + wh.startHour * 60 + wh.startMinute) →
      minDuration ≤ (startOfDay t + wh.endHour * 60 + wh.endMinute) - z.start →
      findFreeSlots [z] t t wh minDuration =
        [⟨startOfDay t + wh.startHour * 60 + wh.startMinute, z.start,
          z.start - (startOfDay t + wh.startHour * 60 + wh.startMinute)⟩,
         ⟨z.start, startOfDay t + wh.endHour * 60 + wh.endMinute,
          (startOfDay t + wh.endHour * 60 + wh.endMinute) - z.start⟩]) := by
  refine ⟨?_, ?_, ?_⟩
  · intro z e hz he
    unfold overlapsB
    rw [areIntervalsOverlapping_eq_strict z.start z.end_ e.start e.end_ (le_of_eq hz) he,
      ← hz]
    constructor
    · rintro ⟨h1, h2⟩
      exact ⟨h2, h1⟩
    · rintro ⟨h1, h2⟩
      exact ⟨h2, h1⟩
  · intro z1 z2 hid hz1 hz2 hsame
    refine (detectConflicts_pair_iff z1 z2 hid (le_of_eq hz1) (le_of_eq hz2)).2.1 ?_
    rw [← hz1]
    exact hsame
  · intro z wh t md had hzero hlo hhi hm1 hm2
    rw [findFreeSlots_single_day]
    exact dayFreeSlots_zero_split z wh md (startOfDay t) had hzero hlo hhi hm1 hm2

/-- C7 amended witness: the three amended statements at concrete inputs. -/
theorem zero_duration_amended_witness :
    overlapsB ⟨1, 50, 50, false, none⟩ ⟨0, 0, 100, false, none⟩ = true ∧
    detectConflicts [⟨2, 50, 50, false, none⟩, ⟨3, 50, 50, false, none⟩] = [] ∧
    findFreeSlots [⟨4, 720, 720, false, none⟩] 0 0 ⟨9, 0, 17, 0⟩ 30 =
      [⟨540, 720, 180⟩, ⟨720, 1020, 300⟩] := by
  refine ⟨?_, ?_, ?_⟩
  · exact (zero_duration_amended.1 ⟨1, 50, 50, false, none⟩ ⟨0, 0, 100, false, none⟩
      (by decide) (by decide)).mpr (by decide)
  · exact zero_duration_amended.2.1 ⟨2, 50, 50, false, none⟩ ⟨3, 50, 50, false, none⟩
      (by decide) (by decide) (by decide) (by decide)
  · exact (zero_duration_amended.2.2 ⟨4, 720, 720, false, none⟩ ⟨9, 0, 17, 0⟩ 0 30
      (by decide) (by decide) (by decide) (by decide) (by decide) (by decide)).trans
      (by decide)

/-- C10: `hasConflict` returns true iff at least one non-all-day existing
event strictly overlaps the candidate interval; consequently all-day
events and events that merely touch the candidate's endpoints never make it
return true. -/
theorem hasConflict_iff (newStart newEnd : Int) (events : List CalendarEvent)
    (hnew : newStart ≤ newEnd) (hwf : ∀ e ∈ events, e.start ≤ e.end_) :
    (hasConflict newStart newEnd events = true ↔
      ∃ e ∈ events, e.allDay = false ∧ newStart < e.end_ ∧ e.start < newEnd) ∧
    ((∀ e ∈ events, e.allDay = true ∨ e.end_ ≤ newStart ∨ newEnd ≤ e.start) →
      hasConflict newStart newEnd events = false) := by
  have hmain : hasConflict newStart newEnd events = true ↔
      ∃ e ∈ events, e.allDay = false ∧ newStart < e.end_ ∧ e.start < newEnd := by
    unfold hasConflict
    rw [List.any_eq_true]
    constructor
    · rintro ⟨e, he, hcond⟩
      rw [Bool.and_eq_true] at hcond
      obtain ⟨h1, h2⟩ := hcond
      have had : e.allDay = false := by simpa using h1
      have hov := (areIntervalsOverlapping_eq_strict newStart newEnd e.start e.end_
        hnew (hwf e he)).mp h2
      exact ⟨e, he, had, hov.1, hov.2⟩
    · rintro ⟨e, he, had, hov1, hov2⟩
      refine ⟨e, he, ?_⟩
      rw [Bool.and_eq_true]
      refine ⟨by simp [had], ?_⟩
      exact (areIntervalsOverlapping_eq_strict newStart newEnd e.start e.end_
        hnew (hwf e he)).mpr ⟨hov1, hov2⟩
  refine ⟨hmain, ?_⟩
  intro hall
  rcases hb : hasConflict newStart newEnd events with _ | _
  · rfl
  · exfalso
    obtain ⟨e, he, had, hov1, hov2⟩ := hmain.mp hb
    rcases hall e he with h | h | h
    · rw [had] at h
      simp at h
    · omega
    · omega

/-- C10 witness: a concrete strict overlap triggers `hasConflict`; a
concrete touching event does not. -/
theorem hasConflict_iff_witness :
    hasConflict 600 660 [⟨0, 630, 700, false, none⟩] = true ∧
    hasConflict 600 660 [⟨1, 660, 700, false, none⟩] = false := by
  constructor
  · exact (hasConflict_iff 600 660 [⟨0, 630, 700, false, none⟩] (by decide)
      (by decide)).1.mpr ⟨⟨0, 630, 700, false, none⟩, by decide, by decide, by decide,
        by decide⟩
  · exact (hasConflict_iff 600 660 [⟨1, 660, 700, false, none⟩] (by decide)
      (by decide)).2 (by decide)

theorem habitScore_fold_char (category : Option EventCategory)
    (slotHour slotDayOfWeek : Int) (pts : List TimeSlot) :
    ∀ acc : Int × List String,
      ((pts.foldl (habitScoreStep category slotHour slotDayOfWeek) acc).1 =
        acc.1 + 10 * dayMatchCount pts slotDayOfWeek + 20 * hourClose1Count pts slotHour +
          10 * hourClose2OnlyCount pts slotHour) ∧
      ((pts.foldl (habitScoreStep category slotHour slotDayOfWeek) acc).2.length =
        acc.2.length + dayMatchCount pts slotDayOfWeek + hourClose1Count pts slotHour) := by
  induction pts with
  | nil =>
    intro acc
    simp [dayMatchCount, hourClose1Count, hourClose2OnlyCount]
  | cons pt pts ih =>
    intro acc
    rw [List.foldl_cons]
    obtain ⟨ih1, ih2⟩ := ih (habitScoreStep category slotHour slotDayOfWeek acc pt)
    have hstep1 : (habitScoreStep category slotHour slotDayOfWeek acc pt).1 =
        acc.1 + (if pt.dayOfWeek = some slotDayOfWeek then 10 else 0) +
          (if (pt.hour - slotHour).natAbs ≤ 1 then 20
           else if (pt.hour - slotHour).natAbs ≤ 2 then 10 else 0) := by
      unfold habitScoreStep
      split_ifs <;> simp
    have hstep2 : (habitScoreStep category slotHour slotDayOfWeek acc pt).2.length =
        acc.2.length + (if pt.dayOfWeek = some slotDayOfWeek then 1 else 0) +
          (if (pt.hour - slotHour).natAbs ≤ 1 then 1 else 0) := by
      unfold habitScoreStep
      split_ifs <;> simp
    have hd : dayMatchCount (pt :: pts) slotDayOfWeek =
        (if pt.dayOfWeek = some slotDayOfWeek then 1 else 0) +
          dayMatchCount pts slotDayOfWeek := by
      unfold dayMatchCount
      rw [List.filter_cons]
      by_cases h : pt.dayOfWeek = some slotDayOfWeek
      · rw [if_pos (by simpa using h), if_pos h]
        simp [Nat.add_comm]
      · rw [if_neg (by simpa using h), if_neg h]
        omega
    have hh1 : hourClose1Count (pt :: pts) slotHour =
        (if (pt.hour - slotHour).natAbs ≤ 1 then 1 else 0) +
          hourClose1Count pts slotHour := by
      unfold hourClose1Count
      rw [List.filter_cons]
      by_cases h : (pt.hour - slotHour).natAbs ≤ 1
      · rw [if_pos (by simpa using h), if_pos h]
        simp [Nat.add_comm]
      · rw [if_neg (by simpa using h), if_neg h]
        omega
    have hh2 : hourClose2OnlyCount (pt :: pts) slotHour =
        (if 1 < (pt.hour - slotHour).natAbs ∧ (pt.hour - slotHour).natAbs ≤ 2
          then 1 else 0) + hourClose2OnlyCount pts slotHour := by
      unfold hourClose2OnlyCount
      rw [List.filter_cons]
      by_cases h : 1 < (pt.hour - slotHour).natAbs ∧ (pt.hour - slotHour).natAbs ≤ 2
      · rw [if_pos (by simpa using h), if_pos h]
        simp [Nat.add_comm]
      · rw [if_neg (by simpa using h), if_neg h]
        omega
    constructor
    · rw [ih1, hstep1, hd, hh1, hh2]
      split_ifs <;> push_cast <;> omega
    · rw [ih2, hstep2, hd, hh1]
      split_ifs <;> omega

theorem habitScore_char (categoryHabit : Option HabitPattern)
    (category : Option EventCategory) (slotHour slotDayOfWeek : Int) :
    ((habitScore categoryHabit category slotHour slotDayOfWeek).1 =
      50 + 10 * dayMatchCount ((categoryHabit.map (fun h => h.preferredTimes)).getD [])
          slotDayOfWeek +
        20 * hourClose1Count ((categoryHabit.map (fun h => h.preferredTimes)).getD [])
          slotHour +
        10 * hourClose2OnlyCount ((categoryHabit.map (fun h => h.preferredTimes)).getD [])
          slotHour) ∧
    ((habitScore categoryHabit category slotHour slotDayOfWeek).2.length =
      dayMatchCount ((categoryHabit.map (fun h => h.preferredTimes)).getD [])
          slotDayOfWeek +
        hourClose1Count ((categoryHabit.map (fun h => h.preferredTimes)).getD [])
          slotHour) := by
  cases categoryHabit with
  | none => simp [habitScore, dayMatchCount, hourClose1Count, hourClose2OnlyCount]
  | some habit =>
    obtain ⟨h1, h2⟩ := habitScore_fold_char category slotHour slotDayOfWeek
      habit.preferredTimes ((50 : Int), ([] : List String))
    unfold habitScore
    constructor
    · rw [h1]
      simp
    · rw [h2]
      simp

theorem habitScore_fst_ge (categoryHabit : Option HabitPattern)
    (category : Option EventCategory) (slotHour slotDayOfWeek : Int) :
    50 ≤ (habitScore categoryHabit category slotHour slotDayOfWeek).1 := by
  rw [(habitScore_char categoryHabit category slotHour slotDayOfWeek).1]
  omega

theorem ite_and_pair {A B : Prop} [Decidable A] [Decidable B] {α : Type} (x y : α) :
    (if A then (if B then x else y) else y) = if A ∧ B then x else y := by
  split_ifs <;> first | rfl | tauto

/-- Full characterization of one scored candidate: the score is the capped
sum of the base and every bonus, while the reasons count omits exactly the
within-two-hours bonus. -/
theorem scoreSlot_char (categoryHabit : Option HabitPattern)
    (category : Option EventCategory) (desiredDuration : Int) (slot : FreeSlot) :
    ((scoreSlot categoryHabit category desiredDuration slot).score =
      min (50 +
        10 * dayMatchCount ((categoryHabit.map (fun h => h.preferredTimes)).getD [])
          (getDay slot.start) +
        20 * hourClose1Count ((categoryHabit.map (fun h => h.preferredTimes)).getD [])
          (getHours slot.start) +
        10 * hourClose2OnlyCount ((categoryHabit.map (fun h => h.preferredTimes)).getD [])
          (getHours slot.start) +
        (if (category = some EventCategory.work ∨ category = some EventCategory.learning) ∧
            (9 ≤ getHours slot.start ∧ getHours slot.start < 12) then 15 else 0) +
        (if category = some EventCategory.social ∧ 17 ≤ getHours slot.start
          then 10 else 0) +
        (if category = some EventCategory.health ∧
            ((6 ≤ getHours slot.start ∧ getHours slot.start < 8) ∨
             (17 ≤ getHours slot.start ∧ getHours slot.start < 19)) then 15 else 0) +
        (if slot.duration ≥ desiredDuration + 30 then 10 else 0)) 100) ∧
    (((scoreSlot categoryHabit category desiredDuration slot).reasons.length : Int) =
      dayMatchCount ((categoryHabit.map (fun h => h.preferredTimes)).getD [])
        (getDay slot.start) +
      hourClose1Count ((categoryHabit.map (fun h => h.preferredTimes)).getD [])
        (getHours slot.start) +
      (if (category = some EventCategory.work ∨ category = some EventCategory.learning) ∧
          (9 ≤ getHours slot.start ∧ getHours slot.start < 12) then 1 else 0) +
      (if category = some EventCategory.social ∧ 17 ≤ getHours slot.start
        then 1 else 0) +
      (if category = some EventCategory.health ∧
          ((6 ≤ getHours slot.start ∧ getHours slot.start < 8) ∨
           (17 ≤ getHours slot.start ∧ getHours slot.start < 19)) then 1 else 0) +
      (if slot.duration ≥ desiredDuration + 30 then 1 else 0)) ∧
    ((scoreSlot categoryHabit category desiredDuration slot).slot =
      ⟨slot.start, slot.start + desiredDuration, desiredDuration⟩) := by
  obtain ⟨hs1, hs2⟩ := habitScore_char categoryHabit category (getHours slot.start)
    (getDay slot.start)
  refine ⟨?_, ?_, rfl⟩
  · unfold scoreSlot
    dsimp only
    rw [ite_and_pair, ite_and_pair, ite_and_pair]
    split_ifs <;> (try dsimp only) <;> rw [hs1] <;> omega
  · unfold scoreSlot
    dsimp only
    rw [ite_and_pair, ite_and_pair, ite_and_pair]
    split_ifs <;>
      (try dsimp only) <;>
      (try simp only [List.length_append, List.length_cons, List.length_nil]) <;>
      rw [hs2] <;>
      push_cast <;>
      omega

theorem scoreSlot_spec (categoryHabit : Option HabitPattern)
    (category : Option EventCategory) (desiredDuration : Int) (slot : FreeSlot) :
    50 ≤ (scoreSlot categoryHabit category desiredDuration slot).score ∧
    (scoreSlot categoryHabit category desiredDuration slot).score ≤ 100 ∧
    (scoreSlot categoryHabit category desiredDuration slot).slot =
      ⟨slot.start, slot.start + desiredDuration, desiredDuration⟩ := by
  obtain ⟨h1, -, h3⟩ := scoreSlot_char categoryHabit category desiredDuration slot
  refine ⟨?_, ?_, h3⟩
  · rw [h1]
    split_ifs <;> omega
  · rw [h1]
    split_ifs <;> omega

/-- C5: every suggestion's score lies in [0.5, 1.0] (here in exact integer
hundredths, [50, 100]); every suggestion's slot is trimmed to exactly the
desired duration starting at a kept candidate's start; exactly the
candidates of sufficient duration are kept; and the output is sorted
descending by score. -/
theorem suggestBestTimes_spec :
    (∀ (freeSlots : List FreeSlot) (desiredDuration : Int) (habits : List HabitPattern)
      (category : Option EventCategory),
      ∀ s ∈ suggestBestTimes freeSlots desiredDuration habits category,
        (50 ≤ s.score ∧ s.score ≤ 100) ∧
        ∃ slot ∈ freeSlots, desiredDuration ≤ slot.duration ∧
          s.slot = ⟨slot.start, slot.start + desiredDuration, desiredDuration⟩) ∧
    (∀ (freeSlots : List FreeSlot) (desiredDuration : Int) (habits : List HabitPattern)
      (category : Option EventCategory),
      (suggestBestTimes freeSlots desiredDuration habits category).length =
        (freeSlots.filter (fun slot => decide (desiredDuration ≤ slot.duration))).length) ∧
    (∀ (freeSlots : List FreeSlot) (desiredDuration : Int) (habits : List HabitPattern)
      (category : Option EventCategory),
      List.Sorted (fun a b => b.score ≤ a.score)
        (suggestBestTimes freeSlots desiredDuration habits category)) := by
  refine ⟨?_, ?_, ?_⟩
  · intro fs d habits cat s hs
    unfold suggestBestTimes at hs
    rw [List.mem_insertionSort] at hs
    obtain ⟨slot, hslot, rfl⟩ := List.mem_map.mp hs
    rw [List.mem_filter] at hslot
    obtain ⟨hmem, hcond⟩ := hslot
    have hd' : ¬ slot.duration < d := by simpa using hcond
    obtain ⟨hb1, hb2, hb3⟩ := scoreSlot_spec
      (habits.find? (fun h => decide (some h.category = cat))) cat d slot
    exact ⟨⟨hb1, hb2⟩, slot, hmem, not_lt.mp hd', hb3⟩
  · intro fs d habits cat
    unfold suggestBestTimes
    rw [List.length_insertionSort, List.length_map]
    congr 1
    refine List.filter_congr ?_
    intro slot _
    by_cases h : slot.duration < d
    · simp [h, not_le.mpr h]
    · simp [h, not_lt.mp h]
  · intro fs d habits cat
    unfold suggestBestTimes
    exact List.sorted_insertionSort _ _

/-- C5 witness: the single sufficient candidate slot (100 minutes, desired
60) is kept, trimmed to 60 minutes from its start, with score 60. -/
theorem suggestBestTimes_spec_witness :
    (50 ≤ (⟨⟨540, 600, 60⟩, 60, ["Extra buffer time available"]⟩ : TimeSuggestion).score ∧
      (⟨⟨540, 600, 60⟩, 60, ["Extra buffer time available"]⟩ : TimeSuggestion).score ≤ 100) ∧
    ∃ slot ∈ [(⟨540, 640, 100⟩ : FreeSlot)], (60 : Int) ≤ slot.duration ∧
      (⟨⟨540, 600, 60⟩, 60, ["Extra buffer time available"]⟩ : TimeSuggestion).slot =
        ⟨slot.start, slot.start + 60, 60⟩ :=
  suggestBestTimes_spec.1 [⟨540, 640, 100⟩] 60 [] none
    ⟨⟨540, 600, 60⟩, 60, ["Extra buffer time available"]⟩ (by decide)

/-- C8 counterexample: with one preferred time at hour 10 and a candidate
slot at hour 12 (hour difference exactly 2), the within-two-hours bonus is
applied (score 60 = base 50 + 0.1) but the reasons list is empty, so the
number of reasons differs from the number of bonuses applied. -/
theorem suggest_reasons_counterexample :
    suggestBestTimes [⟨720, 780, 60⟩] 60
        [⟨5, EventCategory.personal, [⟨some 0, 10, 0⟩], 60, FrequencyType.weekly, [], 1⟩]
        (some EventCategory.personal) =
      [{ slot := ⟨720, 780, 60⟩, score := 60, reasons := [] }] := by
  decide

/-- C8 amended: for every suggestion, the score is the capped sum of the
base and all bonuses, and the reasons list carries exactly one entry per
applied bonus except the within-two-hours hour bonus, which contributes
+0.1 to the score but no reason (the reasons are appended in evaluation
order: per-preferred-time bonuses first, then the fixed category bonuses,
then the buffer bonus). -/
theorem suggest_reasons_amended :
    ∀ (freeSlots : List FreeSlot) (desiredDuration : Int) (habits : List HabitPattern)
      (category : Option EventCategory),
      ∀ s ∈ suggestBestTimes freeSlots desiredDuration habits category,
        ∃ slot ∈ freeSlots, desiredDuration ≤ slot.duration ∧
          (s.score = min (50 +
            10 * dayMatchCount
              (((habits.find? (fun h => decide (some h.category = category))).map
                (fun h => h.preferredTimes)).getD []) (getDay slot.start) +
            20 * hourClose1Count
              (((habits.find? (fun h => decide (some h.category = category))).map
                (fun h => h.preferredTimes)).getD []) (getHours slot.start) +
            10 * hourClose2OnlyCount
              (((habits.find? (fun h => decide (some h.category = category))).map
                (fun h => h.preferredTimes)).getD []) (getHours slot.start) +
            (if (category = some EventCategory.work ∨
                category = some EventCategory.learning) ∧
                (9 ≤ getHours slot.start ∧ getHours slot.start < 12) then 15 else 0) +
            (if category = some EventCategory.social ∧ 17 ≤ getHours slot.start
              then 10 else 0) +
            (if category = some EventCategory.health ∧
                ((6 ≤ getHours slot.start ∧ getHours slot.start < 8) ∨
                 (17 ≤ getHours slot.start ∧ getHours slot.start < 19))
              then 15 else 0) +
            (if slot.duration ≥ desiredDuration + 30 then 10 else 0)) 100) ∧
          ((s.reasons.length : Int) =
            dayMatchCount
              (((habits.find? (fun h => decide (some h.category = category))).map
                (fun h => h.preferredTimes)).getD []) (getDay slot.start) +
            hourClose1Count
              (((habits.find? (fun h => decide (some h.category = category))).map
                (fun h => h.preferredTimes)).getD []) (getHours slot.start) +
            (if (category = some EventCategory.work ∨
                category = some EventCategory.learning) ∧
                (9 ≤ getHours slot.start ∧ getHours slot.start < 12) then 1 else 0) +
            (if category = some EventCategory.social ∧ 17 ≤ getHours slot.start
              then 1 else 0) +
            (if category = some EventCategory.health ∧
                ((6 ≤ getHours slot.start ∧ getHours slot.start < 8) ∨
                 (17 ≤ getHours slot.start ∧ getHours slot.start < 19))
              then 1 else 0) +
            (if slot.duration ≥ desiredDuration + 30 then 1 else 0)) := by
  intro fs d habits cat s hs
  unfold suggestBestTimes at hs
  rw [List.mem_insertionSort] at hs
  obtain ⟨slot, hslot, rfl⟩ := List.mem_map.mp hs
  rw [List.mem_filter] at hslot
  obtain ⟨hmem, hcond⟩ := hslot
  have hd' : ¬ slot.duration < d := by simpa using hcond
  obtain ⟨hc1, hc2, -⟩ := scoreSlot_char
    (habits.find? (fun h => decide (some h.category = cat))) cat d slot
  exact ⟨slot, hmem, not_lt.mp hd', hc1, hc2⟩

/-- C8 amended witness: the hour-difference-2 example again — one bonus
applied (score 60), zero reasons, matching the amended counting. -/
theorem suggest_reasons_amended_witness :
    ∃ slot ∈ [(⟨720, 780, 60⟩ : FreeSlot)], (60 : Int) ≤ slot.duration ∧
      ((⟨⟨720, 780, 60⟩, 60, []⟩ : TimeSuggestion).score = min (50 +
        10 * dayMatchCount [⟨some 0, 10, 0⟩] (getDay slot.start) +
        20 * hourClose1Count [⟨some 0, 10, 0⟩] (getHours slot.start) +
        10 * hourClose2OnlyCount [⟨some 0, 10, 0⟩] (getHours slot.start) +
        (if ((some EventCategory.personal : Option EventCategory) =
            some EventCategory.work ∨
            (some EventCategory.personal : Option EventCategory) =
            some EventCategory.learning) ∧
            (9 ≤ getHours slot.start ∧ getHours slot.start < 12) then 15 else 0) +
        (if (some EventCategory.personal : Option EventCategory) =
            some EventCategory.social ∧ 17 ≤ getHours slot.start then 10 else 0) +
        (if (some EventCategory.personal : Option EventCategory) =
            some EventCategory.health ∧
            ((6 ≤ getHours slot.start ∧ getHours slot.start < 8) ∨
             (17 ≤ getHours slot.start ∧ getHours slot.start < 19)) then 15 else 0) +
        (if slot.duration ≥ (60 : Int) + 30 then 10 else 0)) 100) ∧
      (((⟨⟨720, 780, 60⟩, 60, []⟩ : TimeSuggestion).reasons.length : Int) =
        dayMatchCount [⟨some 0, 10, 0⟩] (getDay slot.start) +
        hourClose1Count [⟨some 0, 10, 0⟩] (getHours slot.start) +
        (if ((some EventCategory.personal : Option EventCategory) =
            some EventCategory.work ∨
            (some EventCategory.personal : Option EventCategory) =
            some EventCategory.learning) ∧
            (9 ≤ getHours slot.start ∧ getHours slot.start < 12) then 1 else 0) +
        (if (some EventCategory.personal : Option EventCategory) =
            some EventCategory.social ∧ 17 ≤ getHours slot.start then 1 else 0) +
        (if (some EventCategory.personal : Option EventCategory) =
            some EventCategory.health ∧
            ((6 ≤ getHours slot.start ∧ getHours slot.start < 8) ∨
             (17 ≤ getHours slot.start ∧ getHours slot.start < 19)) then 1 else 0) +
        (if slot.duration ≥ (60 : Int) + 30 then 1 else 0)) :=
  suggest_reasons_amended [⟨720, 780, 60⟩] 60
    [⟨5, EventCategory.personal, [⟨some 0, 10, 0⟩], 60, FrequencyType.weekly, [], 1⟩]
    (some EventCategory.personal) ⟨⟨720, 780, 60⟩, 60, []⟩ (by decide)

theorem generateId_fresh (store : List HabitPattern) :
    ∀ p ∈ store, p.id < generateId store := by
  induction store with
  | nil => simp
  | cons q store ih =>
    intro p hp
    unfold generateId
    rw [List.foldr_cons]
    rcases List.mem_cons.mp hp with rfl | hp'
    · omega
    · have := ih p hp'
      unfold generateId at this
      omega

theorem sliceLast_suffix {α : Type} (n : Nat) (l : List α) :
    (sliceLast n l).IsSuffix l :=
  List.drop_suffix _ _

theorem sliceLast_length {α : Type} (n : Nat) (l : List α) :
    (sliceLast n l).length = min n l.length := by
  unfold sliceLast
  rw [List.length_drop]
  omega

theorem isSuffix_append_right {α : Type} {l1 l2 : List α} (l3 : List α)
    (h : l1.IsSuffix l2) : (l1 ++ l3).IsSuffix (l2 ++ l3) := by
  obtain ⟨t, rfl⟩ := h
  exact ⟨t, (List.append_assoc t l1 l3).symm⟩

theorem updatePreferredTimes_length (existing : List TimeSlot) (newSlot : TimeSlot)
    (h1 : 1 ≤ existing.length) (h5 : existing.length ≤ 5) :
    1 ≤ (updatePreferredTimes existing newSlot).length ∧
      (updatePreferredTimes existing newSlot).length ≤ 5 := by
  unfold updatePreferredTimes
  split
  · split
    · rw [List.length_set]
      exact ⟨h1, h5⟩
    · exact ⟨h1, h5⟩
  · rw [sliceLast_length, List.length_append]
    simp only [List.length_cons, List.length_nil]
    omega

theorem catStarts_snoc (evs : List CalendarEvent) (e : CalendarEvent)
    (c : EventCategory) :
    catStarts (evs ++ [e]) c =
      catStarts evs c ++
        (if e.category.getD EventCategory.other = c then [e.start] else []) := by
  unfold catStarts
  rw [List.filter_append, List.map_append]
  congr 1
  by_cases h : e.category.getD EventCategory.other = c
  · simp [h]
  · simp [h]

theorem jsRoundDiv_eq_round (p q : Int) (hq : 0 < q) :
    jsRoundDiv p q = round ((p : ℚ) / (q : ℚ)) := by
  rw [round_eq]
  unfold jsRoundDiv
  have harg : ((p : ℚ) / (q : ℚ) + 1 / 2) = ((2 * p + q : Int) : ℚ) / ((2 * q : Int) : ℚ) := by
    have hq0 : (q : ℚ) ≠ 0 := by
      exact_mod_cast ne_of_gt hq
    push_cast
    field_simp
    ring
  rw [harg]
  have hd : (((2 * q).toNat : ℕ) : Int) = 2 * q := Int.toNat_of_nonneg (by omega)
  have hcast : ((2 * q : Int) : ℚ) = (((2 * q).toNat : ℕ) : ℚ) := by
    exact_mod_cast hd.symm
  rw [hcast, Rat.floor_intCast_div_natCast, hd]
  exact Int.fdiv_eq_ediv _ (by omega)

theorem learnFromEvent_none (store : List HabitPattern) (e : CalendarEvent)
    (hfind : getHabitByCategory store (e.category.getD EventCategory.other) = none) :
    learnFromEvent store e = store ++
      [⟨generateId store, e.category.getD EventCategory.other,
        [⟨some (getDay e.start), getHours e.start, getMinutes e.start⟩],
        e.end_ - e.start, FrequencyType.weekly, [e.start], 1⟩] := by
  unfold learnFromEvent
  simp only [hfind]

theorem learnFromEvent_some (store : List HabitPattern) (e : CalendarEvent)
    (habit : HabitPattern)
    (hfind : getHabitByCategory store (e.category.getD EventCategory.other) = some habit) :
    learnFromEvent store e = updateHabit store habit.id
      { habit with
        preferredTimes := updatePreferredTimes habit.preferredTimes
          ⟨some (getDay e.start), getHours e.start, getMinutes e.start⟩
        avgDuration := jsRoundDiv
          (habit.avgDuration * (habit.eventCount : Int) + (e.end_ - e.start))
          ((habit.eventCount : Int) + 1)
        lastOccurrences := sliceLast 10 (habit.lastOccurrences ++ [e.start])
        eventCount := habit.eventCount + 1 } := by
  unfold learnFromEvent
  simp only [hfind]

theorem updateHabit_map_id (store : List HabitPattern) (i : Nat) (newPat : HabitPattern)
    (hid : newPat.id = i) :
    (updateHabit store i newPat).map (fun p => p.id) = store.map (fun p => p.id) := by
  unfold updateHabit
  rw [List.map_map]
  refine List.map_congr_left ?_
  intro p _
  show (if p.id = i then newPat else p).id = p.id
  by_cases h : p.id = i
  · rw [if_pos h, hid, h]
  · rw [if_neg h]

theorem updateHabit_map_category (store : List HabitPattern) (i : Nat)
    (newPat : HabitPattern)
    (hcat : ∀ p ∈ store, p.id = i → newPat.category = p.category) :
    (updateHabit store i newPat).map (fun p => p.category) =
      store.map (fun p => p.category) := by
  unfold updateHabit
  rw [List.map_map]
  refine List.map_congr_left ?_
  intro p hp
  show (if p.id = i then newPat else p).category = p.category
  by_cases h : p.id = i
  · rw [if_pos h]
    exact hcat p hp h
  · rw [if_neg h]

/-- The invariant of the habit store reachable from an empty database by a
sequence of `learnFromEvent` calls: ids and categories are unique, each
pattern's counter equals the number of its category's learned events, its
occurrence history is exactly the most recent (at most ten) learned start
instants of its category in learning order, its preferred-times list holds
between one and five entries, and a pattern exists exactly for the
categories seen so far. -/
theorem learn_invariant (events : List CalendarEvent) :
    ((events.foldl learnFromEvent []).map (fun p => p.id)).Nodup ∧
    ((events.foldl learnFromEvent []).map (fun p => p.category)).Nodup ∧
    (∀ p ∈ events.foldl learnFromEvent [],
      p.eventCount = (catStarts events p.category).length ∧
      p.lastOccurrences.IsSuffix (catStarts events p.category) ∧
      p.lastOccurrences.length = min 10 (catStarts events p.category).length ∧
      1 ≤ p.preferredTimes.length ∧ p.preferredTimes.length ≤ 5) ∧
    (∀ c : EventCategory, (∃ p ∈ events.foldl learnFromEvent [], p.category = c) ↔
      catStarts events c ≠ []) := by
  induction events using List.reverseRecOn with
  | nil =>
    refine ⟨by simp, by simp, by simp, ?_⟩
    intro c
    simp [catStarts]
  | append_singleton evs e ih =>
    obtain ⟨ihids, ihcats, ihpat, ihex⟩ := ih
    rw [List.foldl_append, List.foldl_cons, List.foldl_nil]
    cases hfind : getHabitByCategory (evs.foldl learnFromEvent [])
        (e.category.getD EventCategory.other) with
    | none =>
      rw [learnFromEvent_none _ _ hfind]
      have hnocat : ∀ p ∈ evs.foldl learnFromEvent [],
          p.category ≠ e.category.getD EventCategory.other := by
        intro p hp
        have := List.find?_eq_none.mp hfind p hp
        simpa using this
      have hempty : catStarts evs (e.category.getD EventCategory.other) = [] := by
        by_contra h
        obtain ⟨p, hp, hcat⟩ := (ihex (e.category.getD EventCategory.other)).mpr h
        exact hnocat p hp hcat
      refine ⟨?_, ?_, ?_, ?_⟩
      · rw [List.map_append]
        refine ihids.append (by simp) ?_
        intro x hx hx'
        obtain ⟨p, hp, rfl⟩ := List.mem_map.mp hx
        have hlt := generateId_fresh _ p hp
        simp only [List.map_cons, List.map_nil, List.mem_singleton] at hx'
        omega
      · rw [List.map_append]
        refine ihcats.append (by simp) ?_
        intro x hx hx'
        obtain ⟨p, hp, rfl⟩ := List.mem_map.mp hx
        simp only [List.map_cons, List.map_nil, List.mem_singleton] at hx'
        exact hnocat p hp hx'
      · intro p hp
        rcases List.mem_append.mp hp with hp' | hp'
        · have hne : ¬ e.category.getD EventCategory.other = p.category := by
            intro h
            exact hnocat p hp' h.symm
          rw [catStarts_snoc, if_neg hne, List.append_nil]
          exact ihpat p hp'
        · rw [List.mem_singleton] at hp'
          subst hp'
          rw [catStarts_snoc, if_pos rfl, hempty, List.nil_append]
          refine ⟨rfl, List.suffix_refl _, by simp, by simp, by simp⟩
      · intro c
        rw [catStarts_snoc]
        by_cases hc : e.category.getD EventCategory.other = c
        · constructor
          · intro _
            simp [hc, hempty]
          · intro _
            exact ⟨⟨generateId (evs.foldl learnFromEvent []),
              e.category.getD EventCategory.other,
              [⟨some (getDay e.start), getHours e.start, getMinutes e.start⟩],
              e.end_ - e.start, FrequencyType.weekly, [e.start], 1⟩,
              List.mem_append_right _ (List.mem_singleton_self _), hc⟩
        · rw [if_neg hc, List.append_nil]
          rw [← ihex c]
          constructor
          · rintro ⟨p, hp, hcat⟩
            rcases List.mem_append.mp hp with hp' | hp'
            · exact ⟨p, hp', hcat⟩
            · rw [List.mem_singleton] at hp'
              subst hp'
              exact absurd hcat hc
          · rintro ⟨p, hp, hcat⟩
            exact ⟨p, List.mem_append_left _ hp, hcat⟩
    | some habit =>
      rw [learnFromEvent_some _ _ habit hfind]
      have hmem_habit : habit ∈ evs.foldl learnFromEvent [] :=
        List.mem_of_find?_eq_some hfind
      have hcat_habit : habit.category = e.category.getD EventCategory.other := by
        have := List.find?_some hfind
        simpa using this
      have hinj_id : ∀ p ∈ evs.foldl learnFromEvent [], p.id = habit.id → p = habit := by
        intro p hp hpid
        exact List.inj_on_of_nodup_map ihids hp hmem_habit hpid
      have hinj_cat : ∀ p ∈ evs.foldl learnFromEvent [],
          p.category = habit.category → p = habit := by
        intro p hp hpc
        exact List.inj_on_of_nodup_map ihcats hp hmem_habit hpc
      refine ⟨?_, ?_, ?_, ?_⟩
      · rw [updateHabit_map_id]
        · exact ihids
        · rfl
      · rw [updateHabit_map_category]
        · exact ihcats
        · intro p hp hpid
          rw [hinj_id p hp hpid]
      · intro q hq
        unfold updateHabit at hq
        obtain ⟨p, hp, rfl⟩ := List.mem_map.mp hq
        by_cases hpid : p.id = habit.id
        · rw [if_pos hpid]
          have hcatq : ({ habit with
              preferredTimes := updatePreferredTimes habit.preferredTimes
                ⟨some (getDay e.start), getHours e.start, getMinutes e.start⟩
              avgDuration := jsRoundDiv
                (habit.avgDuration * (habit.eventCount : Int) + (e.end_ - e.start))
                ((habit.eventCount : Int) + 1)
              lastOccurrences := sliceLast 10 (habit.lastOccurrences ++ [e.start])
              eventCount := habit.eventCount + 1 } : HabitPattern).category =
              habit.category := rfl
          rw [hcatq, hcat_habit, catStarts_snoc, if_pos rfl]
          obtain ⟨hc1, hc2, hc3, hc4, hc5⟩ := ihpat habit hmem_habit
          rw [hcat_habit] at hc1 hc2 hc3
          refine ⟨?_, ?_, ?_, ?_⟩
          · show habit.eventCount + 1 = _
            rw [List.length_append]
            simp only [List.length_cons, List.length_nil]
            omega
          · show (sliceLast 10 (habit.lastOccurrences ++ [e.start])).IsSuffix _
            exact (sliceLast_suffix _ _).trans (isSuffix_append_right [e.start] hc2)
          · show (sliceLast 10 (habit.lastOccurrences ++ [e.start])).length = _
            rw [sliceLast_length, List.length_append, List.length_append]
            simp only [List.length_cons, List.length_nil]
            omega
          · show 1 ≤ (updatePreferredTimes habit.preferredTimes _).length ∧
              (updatePreferredTimes habit.preferredTimes _).length ≤ 5
            exact updatePreferredTimes_length _ _ hc4 hc5
        · rw [if_neg hpid]
          have hne : ¬ e.category.getD EventCategory.other = p.category := by
            intro h
            have : p.category = habit.category := by
              rw [hcat_habit, ← h]
            exact hpid ((hinj_cat p hp this) ▸ rfl)
          rw [catStarts_snoc, if_neg hne, List.append_nil]
          exact ihpat p hp
      · intro c
        have hlhs : (∃ q ∈ updateHabit (evs.foldl learnFromEvent []) habit.id
            { habit with
              preferredTimes := updatePreferredTimes habit.preferredTimes
                ⟨some (getDay e.start), getHours e.start, getMinutes e.start⟩
              avgDuration := jsRoundDiv
                (habit.avgDuration * (habit.eventCount : Int) + (e.end_ - e.start))
                ((habit.eventCount : Int) + 1)
              lastOccurrences := sliceLast 10 (habit.lastOccurrences ++ [e.start])
              eventCount := habit.eventCount + 1 }, q.category = c) ↔
            (∃ p ∈ evs.foldl learnFromEvent [], p.category = c) := by
          constructor
          · rintro ⟨q, hq, hqc⟩
            unfold updateHabit at hq
            obtain ⟨p, hp, rfl⟩ := List.mem_map.mp hq
            by_cases hpid : p.id = habit.id
            · rw [if_pos hpid] at hqc
              exact ⟨habit, hmem_habit, hqc⟩
            · rw [if_neg hpid] at hqc
              exact ⟨p, hp, hqc⟩
          · rintro ⟨p, hp, hpc⟩
            by_cases hpid : p.id = habit.id
            · refine ⟨_, List.mem_map.mpr ⟨p, hp, rfl⟩, ?_⟩
              rw [if_pos hpid]
              have := hinj_id p hp hpid
              subst this
              exact hpc
            · refine ⟨_, List.mem_map.mpr ⟨p, hp, rfl⟩, ?_⟩
              rw [if_neg hpid]
              exact hpc
        rw [hlhs, catStarts_snoc]
        by_cases hc : e.category.getD EventCategory.other = c
        · constructor
          · intro _
            simp [hc]
          · intro _
            exact ⟨habit, hmem_habit, hcat_habit.trans hc⟩
        · rw [if_neg hc, List.append_nil]
          exact ihex c

/-- C4: learning N same-category events from an empty store yields a single
pattern whose counter is N; each update to an existing pattern sets the
average duration to the rounded incremental mean (Math.round of the exact
rational); and after events of 30 and 60 minutes the average is 45. -/
theorem learnFromEvent_count_avg :
    (∀ (events : List CalendarEvent) (c : EventCategory), events ≠ [] →
      (∀ e ∈ events, e.category.getD EventCategory.other = c) →
      ∃ p, events.foldl learnFromEvent [] = [p] ∧ p.category = c ∧
        p.eventCount = events.length) ∧
    (∀ (store : List HabitPattern) (e : CalendarEvent) (habit : HabitPattern),
      getHabitByCategory store (e.category.getD EventCategory.other) = some habit →
      ∃ p ∈ learnFromEvent store e, p.id = habit.id ∧
        p.eventCount = habit.eventCount + 1 ∧
        p.avgDuration = round
          (((habit.avgDuration * (habit.eventCount : Int) + (e.end_ - e.start) : Int) : ℚ) /
            (((habit.eventCount : Int) + 1 : Int) : ℚ))) ∧
    ((learnFromEvent (learnFromEvent [] ⟨0, 0, 30, false, some EventCategory.work⟩)
        ⟨1, 1440, 1500, false, some EventCategory.work⟩).map (fun p => p.avgDuration) =
      [45]) := by
  refine ⟨?_, ?_, by decide⟩
  · intro events c hne hall
    obtain ⟨-, ihcats, ihpat, ihex⟩ := learn_invariant events
    have hfilter : events.filter
        (fun e => decide (e.category.getD EventCategory.other = c)) = events := by
      refine List.filter_eq_self.mpr ?_
      intro e he
      simp [hall e he]
    have hcatlen : (catStarts events c).length = events.length := by
      unfold catStarts
      rw [hfilter, List.length_map]
    have hcatne : catStarts events c ≠ [] := by
      unfold catStarts
      rw [hfilter]
      intro h
      exact hne (List.map_eq_nil_iff.mp h)
    have hallcat : ∀ q ∈ events.foldl learnFromEvent [], q.category = c := by
      intro q hq
      have hqne : catStarts events q.category ≠ [] := (ihex q.category).mp ⟨q, hq, rfl⟩
      unfold catStarts at hqne
      have : events.filter
          (fun e => decide (e.category.getD EventCategory.other = q.category)) ≠ [] := by
        intro h
        rw [h] at hqne
        exact hqne rfl
      obtain ⟨x, hx⟩ := List.exists_mem_of_ne_nil _ this
      rw [List.mem_filter] at hx
      have := hall x hx.1
      have hx2 : x.category.getD EventCategory.other = q.category := by simpa using hx.2
      rw [← hx2, this]
    obtain ⟨p, hp, hpc⟩ := (ihex c).mpr hcatne
    cases hstore : events.foldl learnFromEvent [] with
    | nil =>
      rw [hstore] at hp
      simp at hp
    | cons q rest =>
      cases rest with
      | nil =>
        have hqc : q.category = c := hallcat q (by rw [hstore]; exact List.mem_cons_self _ _)
        refine ⟨q, rfl, hqc, ?_⟩
        have := (ihpat q (by rw [hstore]; exact List.mem_cons_self _ _)).1
        rw [this, hqc, hcatlen]
      | cons q2 rest2 =>
        exfalso
        have hq1 : q ∈ events.foldl learnFromEvent [] := by
          rw [hstore]
          exact List.mem_cons_self _ _
        have hq2 : q2 ∈ events.foldl learnFromEvent [] := by
          rw [hstore]
          exact List.mem_cons_of_mem _ (List.mem_cons_self _ _)
        have hcats := ihcats
        rw [hstore] at hcats
        simp only [List.map_cons, List.nodup_cons, List.mem_cons] at hcats
        exact hcats.1 (Or.inl (by rw [hallcat q hq1, hallcat q2 hq2]))
  · intro store e habit hfind
    rw [learnFromEvent_some store e habit hfind]
    have hmem : habit ∈ store := List.mem_of_find?_eq_some hfind
    refine ⟨{ habit with
        preferredTimes := updatePreferredTimes habit.preferredTimes
          ⟨some (getDay e.start), getHours e.start, getMinutes e.start⟩
        avgDuration := jsRoundDiv
          (habit.avgDuration * (habit.eventCount : Int) + (e.end_ - e.start))
          ((habit.eventCount : Int) + 1)
        lastOccurrences := sliceLast 10 (habit.lastOccurrences ++ [e.start])
        eventCount := habit.eventCount + 1 },
      List.mem_map.mpr ⟨habit, hmem, by simp⟩, rfl, rfl, ?_⟩
    show jsRoundDiv _ _ = _
    exact jsRoundDiv_eq_round _ _ (by omega)

/-- C4 witness: the two parts applied at concrete inputs — two work events
give one pattern with counter 2, and the incremental update of a concrete
stored pattern matches the rounded rational mean. -/
theorem learnFromEvent_count_avg_witness :
    (∃ p, ([(⟨0, 0, 30, false, some EventCategory.work⟩ : CalendarEvent),
        ⟨1, 1440, 1500, false, some EventCategory.work⟩].foldl learnFromEvent []) = [p] ∧
      p.category = EventCategory.work ∧ p.eventCount = 2) ∧
    ∃ p ∈ learnFromEvent (learnFromEvent [] ⟨0, 0, 30, false, some EventCategory.work⟩)
        ⟨1, 1440, 1500, false, some EventCategory.work⟩,
      p.id = 0 ∧ p.eventCount = 2 ∧
      p.avgDuration = round (((30 * (1 : Int) + (1500 - 1440) : Int) : ℚ) /
        (((1 : Int) + 1 : Int) : ℚ)) := by
  constructor
  · exact learnFromEvent_count_avg.1 _ EventCategory.work (by decide) (by decide)
  · exact learnFromEvent_count_avg.2.1
      (learnFromEvent [] ⟨0, 0, 30, false, some EventCategory.work⟩)
      ⟨1, 1440, 1500, false, some EventCategory.work⟩
      ⟨0, EventCategory.work, [⟨some 4, 0, 0⟩], 30, FrequencyType.weekly, [0], 1⟩
      (by decide)

/-- C6 amended: every reachable pattern keeps at most five preferred times
and at most ten occurrences, and `lastOccurrences` is exactly the most
recent (at most ten) start instants of its category in learning order —
oldest dropped first, most recently learned last.  (It is sorted by instant
only when events are learned in chronological order.) -/
theorem lastOccurrences_bounds (events : List CalendarEvent) :
    ∀ p ∈ events.foldl learnFromEvent [],
      p.preferredTimes.length ≤ 5 ∧ p.lastOccurrences.length ≤ 10 ∧
      p.lastOccurrences.IsSuffix (catStarts events p.category) ∧
      p.lastOccurrences.length = min 10 (catStarts events p.category).length := by
  intro p hp
  obtain ⟨-, -, ihpat, -⟩ := learn_invariant events
  obtain ⟨-, h2, h3, -, h5⟩ := ihpat p hp
  refine ⟨h5, by omega, h2, h3⟩

/-- C6 counterexample: learning an event starting at 100 and then one
starting at 50 leaves `lastOccurrences = [100, 50]` — the most recent start
instant is not last and the list is not in chronological order. -/
theorem lastOccurrences_counterexample :
    ∃ p ∈ learnFromEvent (learnFromEvent [] ⟨0, 100, 130, false, some EventCategory.work⟩)
        ⟨1, 50, 80, false, some EventCategory.work⟩,
      p.lastOccurrences = [100, 50] ∧
      ¬ List.Sorted (fun a b : Int => a ≤ b) p.lastOccurrences := by
  refine ⟨⟨0, EventCategory.work, [⟨some 4, 1, 45⟩], 30, FrequencyType.weekly,
    [100, 50], 2⟩, by decide, by decide, ?_⟩
  intro h
  rw [List.sorted_cons] at h
  exact absurd (h.1 50 (List.mem_singleton_self _)) (by omega)

/-- C6 amended witness: the bounds and suffix property at the concrete
out-of-order store. -/
theorem lastOccurrences_bounds_witness :
    (⟨0, EventCategory.work, [⟨some 4, 1, 45⟩], 30, FrequencyType.weekly,
        [100, 50], 2⟩ : HabitPattern).preferredTimes.length ≤ 5 ∧
    (⟨0, EventCategory.work, [⟨some 4, 1, 45⟩], 30, FrequencyType.weekly,
        [100, 50], 2⟩ : HabitPattern).lastOccurrences.length ≤ 10 ∧
    (⟨0, EventCategory.work, [⟨some 4, 1, 45⟩], 30, FrequencyType.weekly,
        [100, 50], 2⟩ : HabitPattern).lastOccurrences.IsSuffix
      (catStarts [⟨0, 100, 130, false, some EventCategory.work⟩,
        ⟨1, 50, 80, false, some EventCategory.work⟩]
        (⟨0, EventCategory.work, [⟨some 4, 1, 45⟩], 30, FrequencyType.weekly,
          [100, 50], 2⟩ : HabitPattern).category) ∧
    (⟨0, EventCategory.work, [⟨some 4, 1, 45⟩], 30, FrequencyType.weekly,
        [100, 50], 2⟩ : HabitPattern).lastOccurrences.length =
      min 10 (catStarts [⟨0, 100, 130, false, some EventCategory.work⟩,
        ⟨1, 50, 80, false, some EventCategory.work⟩]
        (⟨0, EventCategory.work, [⟨some 4, 1, 45⟩], 30, FrequencyType.weekly,
          [100, 50], 2⟩ : HabitPattern).category).length :=
  lastOccurrences_bounds
    [⟨0, 100, 130, false, some EventCategory.work⟩,
     ⟨1, 50, 80, false, some EventCategory.work⟩]
    ⟨0, EventCategory.work, [⟨some 4, 1, 45⟩], 30, FrequencyType.weekly, [100, 50], 2⟩
    (by decide)

/-- C9 amended: with no stored pattern the queries return the documented
defaults (60-minute average, null suggested time); `analyzeHabitFrequency`
returns weekly for fewer than two occurrences; and `getAvgDurationForCategory`
returns the stored average only when it is nonzero — a stored average of 0
is falsy under the JS `||` and also yields 60. -/
theorem habit_query_defaults :
    (∀ (store : List HabitPattern) (c : EventCategory) (date : Int),
      getHabitByCategory store c = none →
      getAvgDurationForCategory store c = 60 ∧
      getSuggestedTimeForCategory store c date = none) ∧
    (∀ (store : List HabitPattern) (c : EventCategory) (p : HabitPattern),
      getHabitByCategory store c = some p → p.avgDuration ≠ 0 →
      getAvgDurationForCategory store c = p.avgDuration) ∧
    (∀ (store : List HabitPattern) (c : EventCategory) (p : HabitPattern),
      getHabitByCategory store c = some p → p.avgDuration = 0 →
      getAvgDurationForCategory store c = 60) ∧
    (∀ (store : List HabitPattern) (habitId : Nat),
      (∀ p, store.find? (fun h => decide (h.id = habitId)) = some p →
        p.lastOccurrences.length < 2) →
      analyzeHabitFrequency store habitId = FrequencyType.weekly) := by
  refine ⟨?_, ?_, ?_, ?_⟩
  · intro store c date h
    constructor
    · unfold getAvgDurationForCategory
      rw [h]
    · unfold getSuggestedTimeForCategory
      rw [h]
  · intro store c p h hne
    unfold getAvgDurationForCategory
    rw [h]
    simp only [if_neg hne]
  · intro store c p h hz
    unfold getAvgDurationForCategory
    rw [h]
    simp only [if_pos hz]
  · intro store habitId h
    unfold analyzeHabitFrequency
    cases hf : store.find? (fun h => decide (h.id = habitId)) with
    | none => rfl
    | some p =>
      have := h p hf
      simp only [if_pos this]

/-- C9 counterexample: a reachable pattern with stored average 0 (one
zero-duration event) makes `getAvgDurationForCategory` return 60, not the
stored average, even though a pattern for the category exists. -/
theorem avg_duration_zero_counterexample :
    ∃ p, getHabitByCategory (learnFromEvent [] ⟨0, 0, 0, false, some EventCategory.work⟩)
        EventCategory.work = some p ∧ p.avgDuration = 0 ∧
      getAvgDurationForCategory (learnFromEvent [] ⟨0, 0, 0, false, some EventCategory.work⟩)
        EventCategory.work = 60 :=
  ⟨⟨0, EventCategory.work, [⟨some 4, 0, 0⟩], 0, FrequencyType.weekly, [0], 1⟩,
    by decide, by decide, by decide⟩

/-- C9 amended witness: the defaults at concrete inputs — empty store, a
stored nonzero average, a stored zero average, and a one-occurrence
pattern. -/
theorem habit_query_defaults_witness :
    (getAvgDurationForCategory [] EventCategory.work = 60 ∧
      getSuggestedTimeForCategory [] EventCategory.work 0 = none) ∧
    getAvgDurationForCategory
      [⟨0, EventCategory.work, [⟨some 4, 0, 0⟩], 45, FrequencyType.weekly, [0], 1⟩]
      EventCategory.work = 45 ∧
    getAvgDurationForCategory
      [⟨0, EventCategory.work, [⟨some 4, 0, 0⟩], 0, FrequencyType.weekly, [0], 1⟩]
      EventCategory.work = 60 ∧
    analyzeHabitFrequency
      [⟨0, EventCategory.work, [⟨some 4, 0, 0⟩], 45, FrequencyType.weekly, [0], 1⟩]
      0 = FrequencyType.weekly := by
  refine ⟨?_, ?_, ?_, ?_⟩
  · exact habit_query_defaults.1 [] EventCategory.work 0 (by decide)
  · exact habit_query_defaults.2.1 _ EventCategory.work
      ⟨0, EventCategory.work, [⟨some 4, 0, 0⟩], 45, FrequencyType.weekly, [0], 1⟩
      (by decide) (by decide)
  · exact habit_query_defaults.2.2.1 _ EventCategory.work
      ⟨0, EventCategory.work, [⟨some 4, 0, 0⟩], 0, FrequencyType.weekly, [0], 1⟩
      (by decide) (by decide)
  · exact habit_query_defaults.2.2.2 _ 0 (by decide)

end CalendarCore
